import Mathlib

/-!
Verification development for the storyblok-to-zod component pipeline.

The definitions below are shallow embeddings of the repository's functions:

* `kebabToCamelCase`, `handleBloksType`, `convertSbToZodType` — field-type
  mapping (`src/functions/typeConverter.ts`, `src/functions/bloksHandler.ts`,
  i.e. `outputFormatter.ts` in this snapshot);
* `performTopologicalSort` — dependency ordering (`componentProcessor.ts`);
* `validateComponentData`, `convertComponentCore`, `convertComponents` —
  per-component conversion and the skip-on-error loop;
* `analyzeNativeSchemaDependencies` — native-schema usage analysis
  (`dependencyAnalyzer.ts`);
* `emittedText` — the final output dispatch (`outputGenerator.ts`).

JavaScript `Map`s are modelled as association lists in insertion order,
exceptions as `Except`, and external collaborators (the TypeScript
identifier parser, the ts-to-zod converter) as function parameters.
-/

/-- JS `\w` word character: `[A-Za-z0-9_]`. -/
def isWordChar (c : Char) : Bool := c.isAlpha || c.isDigit || c == '_'

/-- Character-level engine of `kebabToCamelCase`: the global regex replace
of dash-followed-by-word-character, where `clearAndUpper` drops the dash
and uppercases the word character. -/
def kebabChars : List Char → List Char
  | [] => []
  | '-' :: c :: rest =>
    if isWordChar c then c.toUpper :: kebabChars rest
    else '-' :: kebabChars (c :: rest)
  | c :: rest => c :: kebabChars rest

/-- `kebabToCamelCase` from `src/utils`. -/
def kebabToCamelCase (s : String) : String := String.mk (kebabChars s.data)

/-- One entry of a `bloks` field's `component_whitelist`: either a JSON
string or some non-string JSON value. -/
inductive WEntry where
  | str (s : String)
  | nonString
deriving DecidableEq

/-- A Storyblok component schema field, restricted to the members the
converter reads.  `type := none` models an absent (or non-string) `type`
member; `component_whitelist := none` models an absent or non-array
whitelist. -/
structure ComponentSchemaField where
  type : Option String := none
  required : Bool := false
  component_whitelist : Option (List WEntry) := none
deriving DecidableEq

/-- The schema symbol emitted for a converted component name. -/
def schemaSymbol (componentName : String) : String :=
  kebabToCamelCase componentName ++ "Schema"

/-- The whitelist-walking loop of `handleBloksType`: skips entries that are
not truthy strings, returns `none` (the early `z.any()` return) on the first
string entry missing from the converted-components registry, and otherwise
collects the valid component names in whitelist order. -/
def collectValidComponents (registry : List String) : List WEntry → Option (List String)
  | [] => some []
  | WEntry.nonString :: rest => collectValidComponents registry rest
  | WEntry.str s :: rest =>
    if s = "" then collectValidComponents registry rest
    else if registry.contains s then
      (collectValidComponents registry rest).map (fun l => s :: l)
    else none

/-- `handleBloksType` from `src/functions/bloksHandler.ts`.  `registry` is
the set of component names present in `ConvertedComponents`. -/
def handleBloksType (registry : List String) (value : ComponentSchemaField) : String :=
  match value.component_whitelist with
  | none => "z.any()"
  | some wl =>
    if wl.length = 0 then "z.any()"
    else
      match collectValidComponents registry wl with
      | none => "z.any()"
      | some validComponents =>
        match validComponents with
        | [] => "z.any()"
        | [componentName] =>
          if componentName = "" then "z.any()"
          else schemaSymbol componentName
        | vs =>
          "z.union([" ++ String.intercalate ", " (vs.map schemaSymbol) ++ "])"

/-- The type tags `convertSbToZodType` recognises explicitly. -/
def recognizedTypes : List String :=
  ["text", "textarea", "markdown", "bloks", "multilink", "option", "options",
   "asset", "richtext", "number", "boolean", "datetime"]

/-- `convertSbToZodType` from `src/functions/typeConverter.ts`.  A `type`
that is absent (or the empty string, which is falsy in JS) yields
`z.any()`; otherwise the if-chain of the source is followed literally. -/
def convertSbToZodType (registry : List String) (value : ComponentSchemaField) : String :=
  match value.type with
  | none => "z.any()"
  | some t =>
    if t = "" then "z.any()"
    else if t ∈ ["text", "textarea", "markdown"] then "z.string()"
    else if t ∈ ([] : List String) then "z.any()"
    else if t = "bloks" then handleBloksType registry value
    else if t = "multilink" then "storyblokMultilinkSchema"
    else if t = "option" then "z.union([z.number(), z.string()])"
    else if t = "options" then "z.array(z.union([z.number(), z.string()]))"
    else if t = "asset" then "storyblokAssetSchema"
    else if t = "richtext" then "storyblokRichtextSchema"
    else if t = "number" then "z.number()"
    else if t = "boolean" then "z.boolean()"
    else if t = "datetime" then "z.string().datetime()"
    else "z.any() /* Unknown type: " ++ t ++ " */"

/-- A dependency mapping: component name to the list of component names it
references, in insertion order (a JS `Map<string, string[]>`). -/
abbrev Graph := List (String × List String)

/-- `componentDependencies.has(name)`. -/
def hasKey (g : Graph) (a : String) : Bool := g.any (fun p => p.1 == a)

/-- `componentDependencies.get(name) || []`. -/
def deps (g : Graph) (a : String) : List String :=
  match g.find? (fun p => p.1 == a) with
  | none => []
  | some p => p.2

/-- The mapping's key set, in insertion order. -/
def keysOf (g : Graph) : List String := g.map Prod.fst

/-- The two ways `performTopologicalSort` can fail: the cyclic-dependency
`ValidationError`, or exhaustion of the fuel that makes the embedded
recursion structural (never reached from `performTopologicalSort`, see
`visit_ne_fuel`). -/
inductive TopoErr where
  | cyclic (component : String)
  | fuelExhausted
deriving DecidableEq

/-- The message of the cyclic-dependency `ValidationError`. -/
def topoErrorMessage : TopoErr → String
  | TopoErr.cyclic c => "Cyclic dependency detected involving component '" ++ c ++ "'"
  | TopoErr.fuelExhausted => "fuel exhausted"

/-- The `for (const dep of deps)` loop inside `visit`: dependencies that are
not keys of the mapping are not visited.  `visitFn` is the recursive call
at the current stack. -/
def visitDeps (g : Graph)
    (visitFn : String → List String → Except TopoErr (List String)) :
    List String → List String → Except TopoErr (List String)
  | [], sorted => Except.ok sorted
  | d :: ds, sorted =>
    if hasKey g d then
      match visitFn d sorted with
      | Except.error e => Except.error e
      | Except.ok s => visitDeps g visitFn ds s
    else
      visitDeps g visitFn ds sorted

/-- The recursive `visit` of `performTopologicalSort`.  `tempMarks` is the
in-progress stack (most recent first); `sorted` doubles as the `visited`
set, since the source adds to both together. -/
def visit (g : Graph) : Nat → String → List String → List String →
    Except TopoErr (List String)
  | 0, _, _, _ => Except.error TopoErr.fuelExhausted
  | fuel + 1, component, tempMarks, sorted =>
    if tempMarks.contains component then
      Except.error (TopoErr.cyclic component)
    else if sorted.contains component then
      Except.ok sorted
    else
      match visitDeps g (fun d s => visit g fuel d (component :: tempMarks) s)
          (deps g component) sorted with
      | Except.error e => Except.error e
      | Except.ok s => Except.ok (s ++ [component])

/-- The top-level `for (const component of componentDependencies.keys())`
loop: every key is visited with a fresh empty `tempMarks`. -/
def topLoop (g : Graph) (fuel : Nat) : List String → List String →
    Except TopoErr (List String)
  | [], sorted => Except.ok sorted
  | k :: ks, sorted =>
    match visit g fuel k [] sorted with
    | Except.error e => Except.error e
    | Except.ok s => topLoop g fuel ks s

/-- `performTopologicalSort` from `componentProcessor.ts`.  The fuel
`g.length + 1` is an upper bound on the depth of the marker stack, which
grows strictly along recursive calls and holds distinct keys only. -/
def performTopologicalSort (g : Graph) : Except TopoErr (List String) :=
  topLoop g (g.length + 1) (keysOf g) []

/-- The same mapping with every dependency that is not a key removed. -/
def restrictGraph (g : Graph) : Graph :=
  g.map (fun p => (p.1, p.2.filter (fun d => hasKey g d)))

/-- The dependency edge relation: `a` references `b` and `b` is a key (the
only references the traversal follows). -/
def Edge (g : Graph) (a b : String) : Prop := b ∈ deps g a ∧ hasKey g b = true

instance (g : Graph) (a b : String) : Decidable (Edge g a b) :=
  decidable_of_iff (b ∈ deps g a ∧ hasKey g b = true) Iff.rfl

/-- The index of a string in a list (first occurrence; length if absent). -/
def idxOf (x : String) : List String → Nat
  | [] => 0
  | y :: l => if y = x then 0 else idxOf x l + 1

/-- The marker stack discipline: each stack entry has an edge to the node
visited just below it. -/
def StackPath (g : Graph) : String → List String → Prop
  | _, [] => True
  | c, h :: t => Edge g h c ∧ StackPath g h t

/-- The invariant of the `sorted` accumulator: no duplicates, every entry
is a key, and every edge out of an entry points to an earlier entry. -/
def SortedInv (g : Graph) (l : List String) : Prop :=
  l.Nodup ∧ (∀ a ∈ l, hasKey g a = true) ∧
  ∀ a ∈ l, ∀ b, Edge g a b → b ∈ l ∧ idxOf b l < idxOf a l

/-- An acyclic four-component mapping: `article` references the keys
`button` and `card` and the unknown name `ghost`. -/
def gW : Graph := [("article", ["button", "card", "ghost"]), ("button", []), ("card", [])]

/-- A rank function witnessing that `gW` is acyclic. -/
def rankW : String → Nat := fun a => if a = "article" then 1 else 0

/-- A two-component cyclic mapping. -/
def gC : Graph := [("a", ["b"]), ("b", ["a"])]

/-- The error classes a per-component conversion can raise
(`ValidationError`, `FileOperationError`, or any other `Error`). -/
inductive ConvErr where
  | validation (msg : String)
  | fileOp (msg : String)
  | other (msg : String)
deriving DecidableEq

/-- The `convertComponents` loop of `componentProcessor.ts`: conversion
results are accumulated in order; a `ValidationError` or
`FileOperationError` is logged and skipped (`continue`), any other error is
rethrown.  `convert` abstracts `convertComponentJsonToZod` for one
component name (its file reading included). -/
def convertComponents (convert : String → Except ConvErr String) :
    List String → List (String × String) → Except ConvErr (List (String × String))
  | [], acc => Except.ok acc
  | c :: rest, acc =>
    match convert c with
    | Except.ok schema => convertComponents convert rest (acc ++ [(c, schema)])
    | Except.error (ConvErr.validation _) => convertComponents convert rest acc
    | Except.error (ConvErr.fileOp _) => convertComponents convert rest acc
    | Except.error e => Except.error e

/-- One field value inside a component's parsed `schema` JSON object:
falsy (`null`/`undefined`/`""`/`0`), a truthy non-object, an object whose
`type` member is not a string, or an object (with `type` a string or
absent). -/
inductive JsonField where
  | falsy
  | truthyNonObject
  | objNonStringType (required : Bool)
  | obj (f : ComponentSchemaField)
deriving DecidableEq

/-- `isValidComponentSchemaField` from `src/validation.ts`: the value must
be an object whose `type` member is a non-empty string. -/
def isValidComponentSchemaField : JsonField → Bool
  | JsonField.falsy => false
  | JsonField.truthyNonObject => false
  | JsonField.objNonStringType _ => false
  | JsonField.obj f =>
    match f.type with
    | none => false
    | some t => decide (0 < t.length)

/-- A component's parsed JSON document, restricted to the shapes
`validateComponentData` distinguishes. -/
inductive ComponentJson where
  | notObject
  | missingSchema
  | withSchema (schema : List (String × JsonField))

/-- JS `String.prototype.trim`: remove leading and trailing whitespace. -/
def trimString (s : String) : String :=
  String.mk (((s.data.dropWhile Char.isWhitespace).reverse.dropWhile Char.isWhitespace).reverse)

/-- `isNonEmptyString` from `src/validation.ts` (on an actual string). -/
def isNonEmptyString (s : String) : Bool := decide (0 < (trimString s).length)

/-- ASCII lower-case letter, as matched by the kebab-case regex. -/
def isAsciiLower (c : Char) : Bool := decide ('a' ≤ c) && decide (c ≤ 'z')

/-- ASCII lower-case letter or digit. -/
def isLowerOrDigit (c : Char) : Bool := isAsciiLower c || c.isDigit

/-- Split a character list on dashes (the dash-separated groups of the
kebab-case regex). -/
def splitDash : List Char → List (List Char)
  | [] => [[]]
  | c :: rest =>
    if c = '-' then [] :: splitDash rest
    else
      match splitDash rest with
      | [] => [[c]]
      | seg :: segs => (c :: seg) :: segs

/-- The kebab-case regex of `validateComponentName`: a lower-case letter,
then lower-case letters or digits, then dash-separated non-empty groups of
lower-case letters or digits. -/
def isKebabCase (s : String) : Bool :=
  match splitDash s.data with
  | [] => false
  | firstSeg :: restSegs =>
    (match firstSeg with
     | [] => false
     | c :: cs => isAsciiLower c && cs.all isLowerOrDigit) &&
    restSegs.all (fun seg => !seg.isEmpty && seg.all isLowerOrDigit)

/-- `validateComponentName` from `src/validation.ts`. -/
def validateComponentName (componentName : String) : Except ConvErr Unit :=
  if !isNonEmptyString componentName then
    Except.error (ConvErr.validation "Component name must be a non-empty string")
  else if !isKebabCase componentName then
    Except.error (ConvErr.validation
      ("Component name '" ++ componentName ++ "' is not in valid kebab-case format"))
  else
    Except.ok ()

/-- `validateComponentData` from `src/validation.ts`: rejects non-object
data and missing schemas, drops every field that fails
`isValidComponentSchemaField` (with a warning), and fails with a
`ValidationError` when no valid field remains. -/
def validateComponentData (data : ComponentJson) (componentName : String) :
    Except ConvErr (List (String × JsonField)) :=
  match data with
  | ComponentJson.notObject =>
    Except.error (ConvErr.validation
      ("Invalid JSON data for component '" ++ componentName ++ "': expected object"))
  | ComponentJson.missingSchema =>
    Except.error (ConvErr.validation
      ("Missing or invalid schema in component '" ++ componentName ++ "'"))
  | ComponentJson.withSchema schema =>
    let validatedSchema := schema.filter (fun p => isValidComponentSchemaField p.2)
    if validatedSchema.length = 0 then
      Except.error (ConvErr.validation
        ("No valid fields found in component '" ++ componentName ++ "'"))
    else
      Except.ok validatedSchema

/-- The `skippableTypes` of `convertComponentJsonToZod`. -/
def skippableTypes : List String := ["tab", "section"]

/-- One iteration of the field loop of `convertComponentJsonToZod`:
`none` models `continue` without output (falsy values and skippable
types), otherwise the emitted object member line. -/
def fieldLine (registry : List String) (propName : String) (v : JsonField) :
    Option String :=
  match v with
  | JsonField.falsy => none
  | JsonField.truthyNonObject => some ("  " ++ propName ++ ": z.any(),\n")
  | JsonField.objNonStringType _ => some ("  " ++ propName ++ ": z.any(),\n")
  | JsonField.obj f =>
    if !isValidComponentSchemaField (JsonField.obj f) then
      some ("  " ++ propName ++ ": z.any(),\n")
    else if f.type.getD "" ∈ skippableTypes then none
    else
      some ("  " ++ propName ++ ": " ++ convertSbToZodType registry f ++
        (if f.required then "" else ".optional()") ++ ",\n")

/-- The object literal assembled by `convertComponentJsonToZod` for a
(validated) schema. -/
def emitObject (registry : List String) (componentName : String)
    (schemaData : List (String × JsonField)) : String :=
  "export const " ++ kebabToCamelCase componentName ++ "Schema = z.object(\x7b\n" ++
  String.join (schemaData.filterMap (fun p => fieldLine registry p.1 p.2)) ++
  "\x7d);\n"

/-- The pure core of `convertComponentJsonToZod`: name validation, data
validation, then field emission (file reading abstracted into the already
parsed `data`). -/
def convertComponentCore (registry : List String) (componentName : String)
    (data : ComponentJson) : Except ConvErr String :=
  match validateComponentName componentName with
  | Except.error e => Except.error e
  | Except.ok _ =>
    match validateComponentData data componentName with
    | Except.error e => Except.error e
    | Except.ok validatedSchema =>
      Except.ok (emitObject registry componentName validatedSchema)

/-- `interfaceName.charAt(0).toLowerCase() + interfaceName.slice(1)`. -/
def lowerFirst (s : String) : String :=
  match s.data with
  | [] => ""
  | c :: cs => String.mk (c.toLower :: cs)

/-- `interfaceNameToSchemaName` from `dependencyAnalyzer.ts`. -/
def interfaceNameToSchemaName (interfaceName : String) : String :=
  lowerFirst interfaceName ++ "Schema"

/-- The `NativeSchemaRegistry` contents: interface name to generated schema
text, in insertion order. -/
abbrev NativeRegistry := List (String × String)

/-- `NativeSchemaRegistry.has`. -/
def hasReg (reg : NativeRegistry) (i : String) : Bool := reg.any (fun p => p.1 == i)

/-- `NativeSchemaRegistry.get`, with `""` for both an absent entry and an
empty one (both falsy in the source). -/
def contentOf (reg : NativeRegistry) (i : String) : String :=
  match reg.find? (fun p => p.1 == i) with
  | none => ""
  | some p => p.2

/-- JS `Map.set` on an association list: overwrite in place or append. -/
def mapSet (m : List (String × String)) (k v : String) : List (String × String) :=
  if m.any (fun q => q.1 == k) then
    m.map (fun q => if q.1 == k then (k, v) else q)
  else m ++ [(k, v)]

/-- The `nativeSchemaReferences` map of `analyzeNativeSchemaDependencies`:
schema name to interface name, one entry per registry key. -/
def nativeSchemaReferences (reg : NativeRegistry) : List (String × String) :=
  reg.foldl (fun m p => mapSet m (interfaceNameToSchemaName p.1) p.1) []

/-- `NativeSchemaRegistry.markAsUsed`: adds the interface to the used set
only when its registered content is truthy. -/
def markAsUsed (reg : NativeRegistry) (used : List String) (i : String) :
    List String :=
  if contentOf reg i ≠ "" ∧ ¬ used.contains i then used ++ [i] else used

/-- The identifier loop of `findIndirectDependencies`: each identifier that
names a native schema not yet marked used is marked and recursed into.
`recurse` is the recursive call at the remaining fuel. -/
def scanIdentifiers (reg : NativeRegistry)
    (recurse : String → List String → List String) :
    List String → List String → List String
  | [], used => used
  | id :: rest, used =>
    match (nativeSchemaReferences reg).find? (fun q => q.1 == id) with
    | none => scanIdentifiers reg recurse rest used
    | some q =>
      if hasReg reg q.2 && !used.contains q.2 then
        scanIdentifiers reg recurse rest (recurse (contentOf reg q.2) (markAsUsed reg used q.2))
      else
        scanIdentifiers reg recurse rest used

/-- `findIndirectDependencies` from `dependencyAnalyzer.ts`, with the
external TypeScript identifier extraction abstracted as `idents` and fuel
making the recursion structural. -/
def findIndirectDependencies (idents : String → List String)
    (reg : NativeRegistry) : Nat → String → List String → List String
  | 0, _, used => used
  | fuel + 1, content, used =>
    scanIdentifiers reg (findIndirectDependencies idents reg fuel) (idents content) used

/-- `analyzeNativeSchemaDependencies` from `dependencyAnalyzer.ts`:
phase one marks every native schema whose schema name occurs as an
identifier in the concatenated component content; phase two walks the
marked schemas' own bodies transitively.  Returns the used interface
names in marking order. -/
def analyzeNativeSchemaDependencies (idents : String → List String)
    (reg : NativeRegistry) (allComponentContent : String) : List String :=
  let refs := nativeSchemaReferences reg
  let direct := refs.foldl
    (fun used q =>
      if (idents allComponentContent).contains q.1 then markAsUsed reg used q.2
      else used) []
  direct.foldl
    (fun used i =>
      findIndirectDependencies idents reg (reg.length + 1) (contentOf reg i) used)
    direct

/-- Direct usage: the interface's schema name occurs as an identifier in
the concatenated component-schema text. -/
def DirectlyUsed (idents : String → List String) (allComponentContent : String)
    (i : String) : Prop :=
  (idents allComponentContent).contains (interfaceNameToSchemaName i) = true

instance (idents : String → List String) (allComponentContent : String) (i : String) :
    Decidable (DirectlyUsed idents allComponentContent i) :=
  decidable_of_iff
    ((idents allComponentContent).contains (interfaceNameToSchemaName i) = true) Iff.rfl

/-- Body reference: interface `j` is registered and its schema name occurs
as an identifier in interface `i`'s registered content. -/
def RefEdge (idents : String → List String) (reg : NativeRegistry)
    (i j : String) : Prop :=
  hasReg reg j = true ∧
  (idents (contentOf reg i)).contains (interfaceNameToSchemaName j) = true

/-- Transitive usage: reachable along body references from some directly
used registered interface. -/
def NativeReachable (idents : String → List String) (reg : NativeRegistry)
    (allComponentContent : String) (j : String) : Prop :=
  ∃ i, hasReg reg i = true ∧ DirectlyUsed idents allComponentContent i ∧
    Relation.ReflTransGen (RefEdge idents reg) i j

/-- A base type in an interface's extends clause: `Array<T>` / `T[]`, or
anything else. -/
inductive TsBaseType where
  | arrayOf (elementType : String)
  | nonArray (text : String)
deriving DecidableEq

/-- Modelled from the spec: the shape of one interface declaration as seen
by `extractSbInterfaceToZod` (the current two-argument version called by
`interfaceProcessor.ts` is not part of this snapshot; only a stale
one-argument copy is).  `ownMemberCount` is the number of the interface's
own members, `baseTypes` its extends clause, `text` its source text. -/
structure SbInterface where
  name : String
  ownMemberCount : Nat
  baseTypes : List TsBaseType
  text : String

/-- Modelled from the spec: `extractSbInterfaceToZod` with the
array-extension bypass (§4.6).  When the `extendsArray` flag is enabled and
the interface has no own members and extends exactly one array-like type,
the external converter is bypassed and `z.array(<T>Schema)` synthesized
directly; otherwise the interface's source text goes through the external
converter. -/
def extractSbInterfaceToZod (externalConvert : String → Except String String)
    (extendsArray : Bool) (iface : SbInterface) : Except String String :=
  if extendsArray && iface.ownMemberCount == 0 &&
      (match iface.baseTypes with
       | [TsBaseType.arrayOf _] => true
       | _ => false) then
    match iface.baseTypes with
    | [TsBaseType.arrayOf t] =>
      Except.ok ("z.array(" ++ interfaceNameToSchemaName t ++ ")")
    | _ => externalConvert iface.text
  else
    externalConvert iface.text

/-- JS `String.prototype.trimEnd`: remove the trailing whitespace. -/
def trimEndString (s : String) : String :=
  String.mk ((s.data.reverse.dropWhile Char.isWhitespace).reverse)

/-- The output dispatch of `generateFinalOutput` (`outputGenerator.ts`):
with an output path the formatted content is written as-is; without one it
is printed with the final whitespace removed (`trimEnd`). -/
def emittedText (formattedContent : String) (outputPath : Option String) : String :=
  match outputPath with
  | some _ => formattedContent
  | none => trimEndString formattedContent

/-- The whitelist entries `handleBloksType` does not skip: the truthy
strings, in whitelist order. -/
def validNames : List WEntry → List String
  | [] => []
  | WEntry.nonString :: rest => validNames rest
  | WEntry.str s :: rest => if s = "" then validNames rest else s :: validNames rest

/-- Whether a conversion outcome is an error of the rethrown class (neither
a `ValidationError` nor a `FileOperationError`). -/
def isOtherErr : Except ConvErr String → Bool
  | Except.error (ConvErr.other _) => true
  | _ => false

/-- A concrete conversion outcome: component `b` fails with an error that
is neither a `ValidationError` nor a `FileOperationError`. -/
def cvtBoom : String → Except ConvErr String :=
  fun c => if c = "b" then Except.error (ConvErr.other "boom") else Except.ok ("schema-" ++ c)

/-- A concrete conversion outcome: component `bad` fails with a
`ValidationError`, all others succeed. -/
def cvtSkip : String → Except ConvErr String :=
  fun c =>
    if c = "bad" then Except.error (ConvErr.validation "No valid fields found in component 'bad'")
    else Except.ok ("schema-" ++ c)


/-- A concrete native-schema registry with three interfaces. -/
def regT : NativeRegistry :=
  [("Alpha", "a-content"), ("Beta", "b-content"), ("Gamma", "g-content")]

/-- A concrete identifier extraction: the component text references
`alphaSchema`, and `Alpha`'s body references `betaSchema`; nothing
references `gammaSchema`. -/
def identsT : String → List String := fun s =>
  if s = "comp" then ["alphaSchema"]
  else if s = "a-content" then ["betaSchema"]
  else []

/-! ## Field-type mapper -/

theorem convertSbToZodType_unknown (registry : List String) (value : ComponentSchemaField)
    (t : String) (hty : value.type = some t) (hmem : t ∉ recognizedTypes) (hne : t ≠ "") :
    convertSbToZodType registry value = "z.any() /* Unknown type: " ++ t ++ " */" := by
  simp only [recognizedTypes, List.mem_cons, List.not_mem_nil, or_false, not_or] at hmem
  obtain ⟨h1, h2, h3, h4, h5, h6, h7, h8, h9, h10, h11, h12⟩ := hmem
  simp [convertSbToZodType, hty, hne, h1, h2, h3, h4, h5, h6, h7, h8, h9, h10, h11, h12]

/-- C3: the field-type mapper is a total function returning exactly the
table-specified expression: text/textarea/markdown map to `z.string()`,
number to `z.number()`, boolean to `z.boolean()`, datetime to
`z.string().datetime()`, option to `z.union([z.number(), z.string()])`,
options to `z.array(z.union([z.number(), z.string()]))`, asset, multilink
and richtext to the shared schema symbols, a missing type to `z.any()`,
and any unrecognized tag `t` to `z.any()` followed by a trailing comment
holding the literal text of `t`. -/
theorem convertSbToZodType_spec (registry : List String) (value : ComponentSchemaField) :
    ((value.type = some "text" ∨ value.type = some "textarea" ∨ value.type = some "markdown") →
      convertSbToZodType registry value = "z.string()") ∧
    (value.type = some "number" → convertSbToZodType registry value = "z.number()") ∧
    (value.type = some "boolean" → convertSbToZodType registry value = "z.boolean()") ∧
    (value.type = some "datetime" → convertSbToZodType registry value = "z.string().datetime()") ∧
    (value.type = some "option" →
      convertSbToZodType registry value = "z.union([z.number(), z.string()])") ∧
    (value.type = some "options" →
      convertSbToZodType registry value = "z.array(z.union([z.number(), z.string()]))") ∧
    (value.type = some "asset" → convertSbToZodType registry value = "storyblokAssetSchema") ∧
    (value.type = some "multilink" →
      convertSbToZodType registry value = "storyblokMultilinkSchema") ∧
    (value.type = some "richtext" →
      convertSbToZodType registry value = "storyblokRichtextSchema") ∧
    (value.type = none → convertSbToZodType registry value = "z.any()") ∧
    (∀ t, value.type = some t → t ∉ recognizedTypes → t ≠ "" →
      convertSbToZodType registry value = "z.any() /* Unknown type: " ++ t ++ " */") := by
  refine ⟨?_, ?_, ?_, ?_, ?_, ?_, ?_, ?_, ?_, ?_, ?_⟩
  · rintro (h | h | h) <;> simp [convertSbToZodType, h]
  · intro h; simp [convertSbToZodType, h]
  · intro h; simp [convertSbToZodType, h]
  · intro h; simp [convertSbToZodType, h]
  · intro h; simp [convertSbToZodType, h]
  · intro h; simp [convertSbToZodType, h]
  · intro h; simp [convertSbToZodType, h]
  · intro h; simp [convertSbToZodType, h]
  · intro h; simp [convertSbToZodType, h]
  · intro h; simp [convertSbToZodType, h]
  · intro t hty hmem hne
    exact convertSbToZodType_unknown registry value t hty hmem hne

theorem convertSbToZodType_spec_witness :
    convertSbToZodType [] { type := some "xyz" } = "z.any() /* Unknown type: xyz */" :=
  (convertSbToZodType_spec [] { type := some "xyz" }).2.2.2.2.2.2.2.2.2.2
    "xyz" rfl (by decide) (by decide)

/-! ## Bloks resolution -/

theorem collectValid_poison (registry : List String) :
    ∀ wl s, WEntry.str s ∈ wl → s ≠ "" → s ∉ registry →
      collectValidComponents registry wl = none := by
  intro wl
  induction wl with
  | nil => intro s hs; cases hs
  | cons e rest ih =>
    intro s hs hne hreg
    cases e with
    | nonString =>
      rcases List.mem_cons.mp hs with hs | hs
      · cases hs
      · simpa [collectValidComponents] using ih s hs hne hreg
    | str s' =>
      rcases List.mem_cons.mp hs with hs | hs
      · cases hs
        simp [collectValidComponents, hne, hreg]
      · by_cases h' : s' = ""
        · simpa [collectValidComponents, h'] using ih s hs hne hreg
        · by_cases hr : s' ∈ registry
          · simp [collectValidComponents, h', hr, ih s hs hne hreg]
          · simp [collectValidComponents, h', hr]

theorem collectValid_all (registry : List String) :
    ∀ names : List String, (∀ s ∈ names, s ≠ "" ∧ s ∈ registry) →
      collectValidComponents registry (names.map WEntry.str) = some names := by
  intro names
  induction names with
  | nil => intro _; rfl
  | cons s rest ih =>
    intro h
    obtain ⟨hne, hreg⟩ := h s (List.mem_cons_self s rest)
    simp [collectValidComponents, hne, hreg, ih (fun x hx => h x (List.mem_cons_of_mem s hx))]

/-- C4: bloks-field resolution: an absent or empty whitelist yields
`z.any()`; any truthy-string whitelist entry missing from the converted
registry makes the whole field resolve to `z.any()`; a whitelist of
names that are all converted resolves to the single component's schema
symbol when there is exactly one, and to a union of all the schema symbols
in whitelist order when there are several. -/
theorem handleBloksType_spec (registry : List String) (value : ComponentSchemaField) :
    ((value.component_whitelist = none ∨ value.component_whitelist = some []) →
      handleBloksType registry value = "z.any()") ∧
    (∀ wl s, value.component_whitelist = some wl → WEntry.str s ∈ wl → s ≠ "" →
      s ∉ registry → handleBloksType registry value = "z.any()") ∧
    (∀ names : List String, value.component_whitelist = some (names.map WEntry.str) →
      (∀ s ∈ names, s ≠ "" ∧ s ∈ registry) →
      (∀ s, names = [s] → handleBloksType registry value = schemaSymbol s) ∧
      (2 ≤ names.length →
        handleBloksType registry value =
          "z.union([" ++ String.intercalate ", " (names.map schemaSymbol) ++ "])")) := by
  refine ⟨?_, ?_, ?_⟩
  · rintro (h | h) <;> simp [handleBloksType, h]
  · intro wl s hwl hs hne hreg
    have hcv := collectValid_poison registry wl s hs hne hreg
    have hne' : wl.length ≠ 0 := by
      intro h0
      rw [List.length_eq_zero] at h0
      subst h0
      cases hs
    simp only [handleBloksType, hwl]
    rw [if_neg hne', hcv]
  · intro names hwl hall
    have hcv := collectValid_all registry names hall
    constructor
    · intro s hnames
      subst hnames
      have hne := (hall s (by simp)).1
      have hlen : (List.map WEntry.str [s]).length ≠ 0 := by simp
      simp only [handleBloksType, hwl]
      rw [if_neg hlen, hcv]
      simp [hne]
    · intro hlen
      match names, hlen with
      | a :: b :: rest, _ =>
        have hlen' : (List.map WEntry.str (a :: b :: rest)).length ≠ 0 := by simp
        have hcv' := collectValid_all registry (a :: b :: rest)
          (by intro x hx; exact hall x hx)
        simp only [handleBloksType, hwl]
        rw [if_neg hlen', hcv']

theorem handleBloksType_spec_witness :
    handleBloksType ["card", "button"]
        { component_whitelist := some [WEntry.str "card", WEntry.str "button"] } =
      "z.union([cardSchema, buttonSchema])" := by
  have h := ((handleBloksType_spec ["card", "button"]
      { component_whitelist := some [WEntry.str "card", WEntry.str "button"] }).2.2
      ["card", "button"] rfl (by decide)).2 (by decide)
  simpa using h

theorem validNames_ne_empty {s : String} : ∀ wl, s ∈ validNames wl → s ≠ "" := by
  intro wl
  induction wl with
  | nil => intro hs; cases hs
  | cons e rest ih =>
    intro hs
    cases e with
    | nonString => exact ih (by simpa [validNames] using hs)
    | str s' =>
      by_cases h' : s' = ""
      · exact ih (by simpa [validNames, h'] using hs)
      · rcases List.mem_cons.mp (by simpa [validNames, h'] using hs) with h | h
        · subst h; exact h'
        · exact ih h

theorem collectValid_validNames (registry : List String) :
    ∀ wl, (∀ s ∈ validNames wl, s ∈ registry) →
      collectValidComponents registry wl = some (validNames wl) := by
  intro wl
  induction wl with
  | nil => intro _; rfl
  | cons e rest ih =>
    intro h
    cases e with
    | nonString =>
      simpa [collectValidComponents, validNames] using ih (by simpa [validNames] using h)
    | str s' =>
      by_cases h' : s' = ""
      · simpa [collectValidComponents, validNames, h'] using
          ih (by simpa [validNames, h'] using h)
      · have hreg : s' ∈ registry := h s' (by simp [validNames, h'])
        have hrest := ih (fun x hx => h x (by simp [validNames, h', hx]))
        simp [collectValidComponents, validNames, h', hreg, hrest]

/-- C9 (implicit): a whitelist entry that is not a truthy string is
silently skipped rather than triggering the `z.any()` fallback: when every
remaining truthy-string entry is converted, the field resolves to the
reference or union built from those entries alone, and only when every
entry is skipped does the result become `z.any()`. -/
theorem handleBloksType_skips_invalid_entries (registry : List String)
    (value : ComponentSchemaField) (wl : List WEntry)
    (hwl : value.component_whitelist = some wl)
    (hconv : ∀ s ∈ validNames wl, s ∈ registry) :
    handleBloksType registry value =
      match validNames wl with
      | [] => "z.any()"
      | [s] => schemaSymbol s
      | vs => "z.union([" ++ String.intercalate ", " (vs.map schemaSymbol) ++ "])" := by
  have hcv := collectValid_validNames registry wl hconv
  by_cases h0 : wl.length = 0
  · rw [List.length_eq_zero] at h0
    subst h0
    simp [handleBloksType, hwl, validNames]
  · simp only [handleBloksType, hwl]
    rw [if_neg h0, hcv]
    match hv : validNames wl with
    | [] => simp
    | [s] =>
      have hne : s ≠ "" := validNames_ne_empty wl (by simp [hv])
      simp [hne]
    | a :: b :: vs => simp

theorem handleBloksType_skips_invalid_entries_witness :
    handleBloksType ["card"]
        { component_whitelist := some [WEntry.nonString, WEntry.str "card", WEntry.str ""] } =
      "cardSchema" := by
  have h := handleBloksType_skips_invalid_entries ["card"]
      { component_whitelist := some [WEntry.nonString, WEntry.str "card", WEntry.str ""] }
      [WEntry.nonString, WEntry.str "card", WEntry.str ""] rfl (by decide)
  simpa using h

/-! ## Interface processing and output dispatch -/

/-- C7: for an interface with no own members extending exactly one
array-like type, the processor bypasses the external converter and
synthesizes `z.array(<T>Schema)` when the bypass flag is enabled, and
sends the interface through the normal external-converter path when the
flag is disabled. -/
theorem extractSbInterfaceToZod_bypass (externalConvert : String → Except String String)
    (iface : SbInterface) (t : String)
    (hmem : iface.ownMemberCount = 0) (hbase : iface.baseTypes = [TsBaseType.arrayOf t]) :
    extractSbInterfaceToZod externalConvert true iface =
      Except.ok ("z.array(" ++ interfaceNameToSchemaName t ++ ")") ∧
    extractSbInterfaceToZod externalConvert false iface = externalConvert iface.text := by
  constructor
  · simp [extractSbInterfaceToZod, hmem, hbase]
  · simp [extractSbInterfaceToZod]

theorem extractSbInterfaceToZod_bypass_witness :
    extractSbInterfaceToZod (fun _ => Except.ok "EXTERNAL") true
        { name := "StoryblokMultiasset", ownMemberCount := 0,
          baseTypes := [TsBaseType.arrayOf "StoryblokAsset"],
          text := "interface StoryblokMultiasset extends Array<StoryblokAsset> \x7b\x7d" } =
      Except.ok "z.array(storyblokAssetSchema)" := by
  have h := (extractSbInterfaceToZod_bypass (fun _ => Except.ok "EXTERNAL")
      { name := "StoryblokMultiasset", ownMemberCount := 0,
        baseTypes := [TsBaseType.arrayOf "StoryblokAsset"],
        text := "interface StoryblokMultiasset extends Array<StoryblokAsset> \x7b\x7d" }
      "StoryblokAsset" rfl rfl).1
  simpa using h

/-- C8 counterexample: when an output path is given, the emitted text is
the formatted content as-is, which can end in whitespace — so the output
text does not always have its trailing whitespace trimmed. -/
theorem emittedText_file_not_trimmed :
    emittedText "x\n" (some "output.zod.ts") ≠
      trimEndString (emittedText "x\n" (some "output.zod.ts")) := by
  decide

/-- C8 (amended): the text printed to standard output (no output path) has
its trailing whitespace trimmed; the text written to a caller-specified
output file is the formatted content unchanged, not trimmed. -/
theorem emittedText_spec (formattedContent : String) (outputPath : String) :
    emittedText formattedContent none = trimEndString formattedContent ∧
    emittedText formattedContent (some outputPath) = formattedContent :=
  ⟨rfl, rfl⟩

/-! ## The conversion loop -/

theorem convertComponents_ok (convert : String → Except ConvErr String) :
    ∀ (comps : List String) (acc : List (String × String)),
      (∀ c ∈ comps, isOtherErr (convert c) = false) →
      convertComponents convert comps acc =
        Except.ok (acc ++ comps.filterMap (fun c =>
          match convert c with
          | Except.ok s => some (c, s)
          | _ => none)) := by
  intro comps
  induction comps with
  | nil => intro acc _; simp [convertComponents]
  | cons c rest ih =>
    intro acc h
    have hc := h c (List.mem_cons_self c rest)
    have hrest := fun x hx => h x (List.mem_cons_of_mem c hx)
    match hcv : convert c with
    | Except.ok s =>
      simp only [convertComponents, hcv, List.filterMap_cons]
      rw [ih (acc ++ [(c, s)]) hrest]
      simp
    | Except.error (ConvErr.validation m) =>
      simp only [convertComponents, hcv, List.filterMap_cons]
      rw [ih acc hrest]
    | Except.error (ConvErr.fileOp m) =>
      simp only [convertComponents, hcv, List.filterMap_cons]
      rw [ih acc hrest]
    | Except.error (ConvErr.other m) =>
      rw [hcv] at hc
      simp [isOtherErr] at hc

/-- C6 counterexample: a per-component failure that is neither a
`ValidationError` nor a `FileOperationError` is rethrown by the loop, so
the run aborts on `b` and the remaining component `c` is never converted —
the loop does not continue through every per-component conversion
failure. -/
theorem convertComponents_not_always_continue :
    convertComponents cvtBoom ["a", "b", "c"] [] = Except.error (ConvErr.other "boom") ∧
    (∀ l, convertComponents cvtBoom ["a", "b", "c"] [] ≠ Except.ok l) := by
  constructor
  · rfl
  · intro l h
    rw [show convertComponents cvtBoom ["a", "b", "c"] [] =
        Except.error (ConvErr.other "boom") from rfl] at h
    exact Except.noConfusion h

/-- C6 (amended): per-component conversion failures of the caught classes
(`ValidationError`, `FileOperationError` — which cover malformed JSON and
validation failures) are skipped and the loop continues with all remaining
components, so a run whose failures are all of those classes succeeds and
produces output exactly for the components whose conversion succeeded, in
order; a failure of any other class is rethrown. -/
theorem convertComponents_skip_spec (convert : String → Except ConvErr String)
    (comps : List String)
    (hno : ∀ c ∈ comps, isOtherErr (convert c) = false) :
    convertComponents convert comps [] =
      Except.ok (comps.filterMap (fun c =>
        match convert c with
        | Except.ok s => some (c, s)
        | _ => none)) := by
  have h := convertComponents_ok convert comps [] hno
  simpa using h

theorem convertComponents_skip_spec_witness :
    convertComponents cvtSkip ["a", "bad", "c"] [] =
      Except.ok [("a", "schema-a"), ("c", "schema-c")] := by
  have h := convertComponents_skip_spec cvtSkip ["a", "bad", "c"] (by decide)
  simpa [cvtSkip] using h

/-! ## Component data validation -/

theorem convertComponents_mem (convert : String → Except ConvErr String) :
    ∀ (comps : List String) (acc l : List (String × String)) (c s : String),
      convertComponents convert comps acc = Except.ok l → (c, s) ∈ l →
      (c, s) ∈ acc ∨ convert c = Except.ok s := by
  intro comps
  induction comps with
  | nil =>
    intro acc l c s h hm
    simp only [convertComponents] at h
    cases h
    exact Or.inl hm
  | cons d rest ih =>
    intro acc l c s h hm
    match hcv : convert d with
    | Except.ok s' =>
      rw [convertComponents, hcv] at h
      rcases ih (acc ++ [(d, s')]) l c s h hm with hin | hok
      · rcases List.mem_append.mp hin with hin | hin
        · exact Or.inl hin
        · simp at hin
          obtain ⟨rfl, rfl⟩ := hin
          exact Or.inr hcv
      · exact Or.inr hok
    | Except.error (ConvErr.validation m) =>
      rw [convertComponents, hcv] at h
      exact ih acc l c s h hm
    | Except.error (ConvErr.fileOp m) =>
      rw [convertComponents, hcv] at h
      exact ih acc l c s h hm
    | Except.error (ConvErr.other m) =>
      rw [convertComponents, hcv] at h
      exact Except.noConfusion h

/-- C10 (implicit): component data validation drops every field whose
descriptor lacks a non-empty string `type` before the mapper sees it — the
emitted object is built from the valid fields alone, so dropped fields are
omitted rather than defaulted to `z.any()` — and when every field is
dropped the conversion fails with the no-valid-fields `ValidationError`,
so the conversion loop never records the component. -/
theorem validateComponentData_drops_invalid (registry : List String)
    (componentName : String) (schema : List (String × JsonField))
    (hname : validateComponentName componentName = Except.ok ()) :
    (schema.filter (fun p => isValidComponentSchemaField p.2) ≠ [] →
      convertComponentCore registry componentName (ComponentJson.withSchema schema) =
        Except.ok (emitObject registry componentName
          (schema.filter (fun p => isValidComponentSchemaField p.2)))) ∧
    (schema.filter (fun p => isValidComponentSchemaField p.2) = [] →
      convertComponentCore registry componentName (ComponentJson.withSchema schema) =
        Except.error (ConvErr.validation
          ("No valid fields found in component '" ++ componentName ++ "'"))) ∧
    (schema.filter (fun p => isValidComponentSchemaField p.2) = [] →
      ∀ (convert : String → Except ConvErr String) (comps : List String)
        (l : List (String × String)),
        convert componentName =
          convertComponentCore registry componentName (ComponentJson.withSchema schema) →
        convertComponents convert comps [] = Except.ok l →
        ∀ s, (componentName, s) ∉ l) := by
  refine ⟨?_, ?_, ?_⟩
  · intro hne
    have hlen : (schema.filter (fun p => isValidComponentSchemaField p.2)).length ≠ 0 := by
      simpa [List.length_eq_zero] using hne
    simp only [convertComponentCore, hname, validateComponentData]
    rw [if_neg hlen]
  · intro heq
    have hlen : (schema.filter (fun p => isValidComponentSchemaField p.2)).length = 0 := by
      simp [heq]
    simp only [convertComponentCore, hname, validateComponentData]
    rw [if_pos hlen]
  · intro heq convert comps l hcv hloop s hmem
    have hlen : (schema.filter (fun p => isValidComponentSchemaField p.2)).length = 0 := by
      simp [heq]
    have herr : convert componentName = Except.error (ConvErr.validation
        ("No valid fields found in component '" ++ componentName ++ "'")) := by
      rw [hcv]
      simp only [convertComponentCore, hname, validateComponentData]
      rw [if_pos hlen]
    rcases convertComponents_mem convert comps [] l componentName s hloop hmem with hin | hok
    · cases hin
    · rw [herr] at hok
      exact Except.noConfusion hok

theorem validateComponentData_drops_invalid_witness :
    convertComponentCore [] "my-comp" (ComponentJson.withSchema
        [("a", JsonField.obj { type := some "text" }),
         ("b", JsonField.obj { type := none }),
         ("c", JsonField.truthyNonObject)]) =
      Except.ok ("export const myCompSchema = z.object(\x7b\n  a: z.string().optional(),\n\x7d);\n") := by
  have h := (validateComponentData_drops_invalid [] "my-comp"
      [("a", JsonField.obj { type := some "text" }),
       ("b", JsonField.obj { type := none }),
       ("c", JsonField.truthyNonObject)] rfl).1 (by decide)
  simpa using h

/-! ## Topological sort: basic facts -/

theorem hasKey_iff (g : Graph) (a : String) : hasKey g a = true ↔ a ∈ keysOf g := by
  unfold hasKey keysOf
  rw [List.any_eq_true]
  constructor
  · rintro ⟨q, hq, hqa⟩
    rw [beq_iff_eq] at hqa
    subst hqa
    exact List.mem_map.mpr ⟨q, hq, rfl⟩
  · intro h
    obtain ⟨q, hq, rfl⟩ := List.mem_map.mp h
    exact ⟨q, hq, beq_self_eq_true _⟩

theorem hasKey_of_mem_deps (g : Graph) (a b : String) (h : b ∈ deps g a) :
    hasKey g a = true := by
  unfold deps at h
  match hf : g.find? (fun q => q.1 == a) with
  | none => rw [hf] at h; cases h
  | some pr =>
    have hpred : (pr.1 == a) = true := by simpa using List.find?_some hf
    have hmem : pr ∈ g := List.mem_of_find?_eq_some hf
    unfold hasKey
    rw [List.any_eq_true]
    exact ⟨pr, hmem, hpred⟩

theorem edge_key_left (g : Graph) (a b : String) (h : Edge g a b) : a ∈ keysOf g :=
  (hasKey_iff g a).mp (hasKey_of_mem_deps g a b h.1)

theorem idxOf_append_left {x : String} : ∀ (l l' : List String), x ∈ l →
    idxOf x (l ++ l') = idxOf x l := by
  intro l l' h
  induction l with
  | nil => cases h
  | cons y l ih =>
    by_cases hy : y = x
    · simp [idxOf, hy]
    · rcases List.mem_cons.mp h with rfl | h
      · exact absurd rfl hy
      · simp [idxOf, hy, ih h]

theorem idxOf_lt_length {x : String} : ∀ l : List String, x ∈ l → idxOf x l < l.length := by
  intro l h
  induction l with
  | nil => cases h
  | cons y l ih =>
    by_cases hy : y = x
    · simp [idxOf, hy]
    · rcases List.mem_cons.mp h with rfl | h
      · exact absurd rfl hy
      · simpa [idxOf, hy] using ih h

theorem idxOf_append_self {x : String} : ∀ l : List String, x ∉ l →
    idxOf x (l ++ [x]) = l.length := by
  intro l h
  induction l with
  | nil => simp [idxOf]
  | cons y l ih =>
    have hy : y ≠ x := fun hxy => h (hxy ▸ List.mem_cons_self y l)
    simp [idxOf, hy, ih (fun hx => h (List.mem_cons_of_mem y hx))]

theorem nodup_length_le (tm ks : List String) (hnd : tm.Nodup)
    (hsub : ∀ x ∈ tm, x ∈ ks) : tm.length ≤ ks.length := by
  calc tm.length = tm.toFinset.card := (List.toFinset_card_of_nodup hnd).symm
    _ ≤ ks.toFinset.card := Finset.card_le_card (fun x hx =>
        List.mem_toFinset.mpr (hsub x (List.mem_toFinset.mp hx)))
    _ ≤ ks.length := ks.toFinset_card_le

theorem stackPath_trans (g : Graph) : ∀ (tm : List String) (c : String),
    StackPath g c tm → ∀ x ∈ tm, Relation.TransGen (Edge g) x c := by
  intro tm
  induction tm with
  | nil => intro c _ x hx; cases hx
  | cons h t ih =>
    intro c hsp x hx
    obtain ⟨hedge, hsp'⟩ := hsp
    rcases List.mem_cons.mp hx with rfl | hx
    · exact Relation.TransGen.single hedge
    · exact Relation.TransGen.tail (ih h hsp' x hx) hedge

theorem acyclic_of_rank (g : Graph) (rank : String → Nat)
    (hr : ∀ a b, Edge g a b → rank b < rank a) :
    ∀ a, ¬ Relation.TransGen (Edge g) a a := by
  have hd : ∀ a b, Relation.TransGen (Edge g) a b → rank b < rank a := by
    intro a b h
    induction h with
    | single h => exact hr _ _ h
    | tail _ h ih => exact lt_trans (hr _ _ h) ih
  intro a ha
  exact lt_irrefl _ (hd a a ha)

theorem sortedInv_no_cycle (g : Graph) (s : List String) (hinv : SortedInv g s)
    (hall : ∀ k ∈ keysOf g, k ∈ s) : ∀ a, ¬ Relation.TransGen (Edge g) a a := by
  have hstep : ∀ a b, Relation.TransGen (Edge g) a b →
      a ∈ s ∧ b ∈ s ∧ idxOf b s < idxOf a s := by
    intro a b h
    induction h with
    | single h =>
      have ha : a ∈ s := hall a (edge_key_left g a _ h)
      obtain ⟨hb, hlt⟩ := hinv.2.2 a ha _ h
      exact ⟨ha, hb, hlt⟩
    | tail hab h ih =>
      obtain ⟨ha, hb, hlt⟩ := ih
      obtain ⟨hc, hlt'⟩ := hinv.2.2 _ hb _ h
      exact ⟨ha, hc, lt_trans hlt' hlt⟩
  intro a ha
  obtain ⟨_, _, hlt⟩ := hstep a a ha
  exact lt_irrefl _ hlt

theorem deps_eq_nil_of_not_hasKey (g : Graph) (a : String) (h : hasKey g a = false) :
    deps g a = [] := by
  unfold deps
  match hf : g.find? (fun q => q.1 == a) with
  | none => rw [hf]
  | some pr =>
    have hpred : (pr.1 == a) = true := by simpa using List.find?_some hf
    have hmem : pr ∈ g := List.mem_of_find?_eq_some hf
    exfalso
    have : hasKey g a = true := by
      unfold hasKey
      rw [List.any_eq_true]
      exact ⟨pr, hmem, hpred⟩
    rw [h] at this
    cases this

/-! ## Topological sort: the visit recursion -/

theorem visitDeps_ok_spec (g : Graph)
    (visitFn : String → List String → Except TopoErr (List String)) (tm : List String)
    (HF : ∀ d sorted s, hasKey g d = true → visitFn d sorted = Except.ok s →
      (∃ t, s = sorted ++ t) ∧ d ∈ s ∧
      (∀ x ∈ s, x ∈ sorted ∨ (hasKey g x = true ∧ x ∉ tm)) ∧
      (SortedInv g sorted → SortedInv g s)) :
    ∀ ds sorted s, visitDeps g visitFn ds sorted = Except.ok s →
      (∃ t, s = sorted ++ t) ∧
      (∀ d ∈ ds, hasKey g d = true → d ∈ s) ∧
      (∀ x ∈ s, x ∈ sorted ∨ (hasKey g x = true ∧ x ∉ tm)) ∧
      (SortedInv g sorted → SortedInv g s) := by
  intro ds
  induction ds with
  | nil =>
    intro sorted s h
    injection h with h
    subst h
    exact ⟨⟨[], by simp⟩, by simp, fun x hx => Or.inl hx, id⟩
  | cons d ds ih =>
    intro sorted s h
    rw [visitDeps] at h
    by_cases hk : hasKey g d
    · rw [if_pos hk] at h
      match hv : visitFn d sorted with
      | Except.error e => rw [hv] at h; exact Except.noConfusion h
      | Except.ok s1 =>
        rw [hv] at h
        obtain ⟨⟨t1, ht1⟩, hd1, hnew1, hinv1⟩ := HF d sorted s1 hk hv
        obtain ⟨⟨t2, ht2⟩, hds2, hnew2, hinv2⟩ := ih s1 s h
        refine ⟨⟨t1 ++ t2, by rw [ht2, ht1, List.append_assoc]⟩, ?_, ?_,
          fun hi => hinv2 (hinv1 hi)⟩
        · intro d' hd' hk'
          rcases List.mem_cons.mp hd' with rfl | hd'
          · rw [ht2]; exact List.mem_append.mpr (Or.inl hd1)
          · exact hds2 d' hd' hk'
        · intro x hx
          rcases hnew2 x hx with hx1 | hx1
          · rcases hnew1 x hx1 with h2 | h2
            · exact Or.inl h2
            · exact Or.inr h2
          · exact Or.inr hx1
    · rw [if_neg hk] at h
      obtain ⟨hpre, hds, hnew, hinv⟩ := ih sorted s h
      refine ⟨hpre, ?_, hnew, hinv⟩
      intro d' hd' hk'
      rcases List.mem_cons.mp hd' with rfl | hd'
      · exact absurd hk' hk
      · exact hds d' hd' hk'

theorem visit_ok_spec (g : Graph) : ∀ fuel c tm sorted s,
    hasKey g c = true →
    visit g fuel c tm sorted = Except.ok s →
    (∃ t, s = sorted ++ t) ∧ c ∈ s ∧
    (∀ x ∈ s, x ∈ sorted ∨ (hasKey g x = true ∧ x ∉ tm)) ∧
    (SortedInv g sorted → SortedInv g s) := by
  intro fuel
  induction fuel with
  | zero =>
    intro c tm sorted s _ h
    rw [visit] at h
    exact Except.noConfusion h
  | succ n ih =>
    intro c tm sorted s hkey h
    rw [visit] at h
    by_cases htm : tm.contains c
    · rw [if_pos htm] at h
      exact Except.noConfusion h
    · rw [if_neg htm] at h
      by_cases hsorted : sorted.contains c
      · rw [if_pos hsorted] at h
        injection h with h
        subst h
        exact ⟨⟨[], by simp⟩, by simpa using hsorted, fun x hx => Or.inl hx, id⟩
      · rw [if_neg hsorted] at h
        have HF : ∀ d sorted' s', hasKey g d = true →
            visit g n d (c :: tm) sorted' = Except.ok s' →
            (∃ t, s' = sorted' ++ t) ∧ d ∈ s' ∧
            (∀ x ∈ s', x ∈ sorted' ∨ (hasKey g x = true ∧ x ∉ c :: tm)) ∧
            (SortedInv g sorted' → SortedInv g s') :=
          fun d sorted' s' hk hv => ih d (c :: tm) sorted' s' hk hv
        match hvd : visitDeps g (fun d s => visit g n d (c :: tm) s) (deps g c) sorted with
        | Except.error e => rw [hvd] at h; exact Except.noConfusion h
        | Except.ok s0 =>
          rw [hvd] at h
          injection h with h
          subst h
          obtain ⟨⟨t0, ht0⟩, hds0, hnew0, hinv0⟩ :=
            visitDeps_ok_spec g _ (c :: tm) HF (deps g c) sorted s0 hvd
          have hcnotin : c ∉ s0 := by
            intro hc0
            rcases hnew0 c hc0 with hc1 | hc1
            · exact hsorted (by simpa using hc1)
            · exact hc1.2 (List.mem_cons_self c tm)
          have hcnottm : c ∉ tm := by simpa using htm
          refine ⟨⟨t0 ++ [c], by rw [ht0, List.append_assoc]⟩,
            List.mem_append.mpr (Or.inr (List.mem_cons_self c [])), ?_, ?_⟩
          · intro x hx
            rcases List.mem_append.mp hx with hx | hx
            · rcases hnew0 x hx with h1 | h1
              · exact Or.inl h1
              · exact Or.inr ⟨h1.1, fun hxtm => h1.2 (List.mem_cons_of_mem c hxtm)⟩
            · rcases List.mem_singleton.mp hx with rfl
              exact Or.inr ⟨hkey, hcnottm⟩
          · intro hi
            have hi0 : SortedInv g s0 := hinv0 hi
            obtain ⟨hnd0, hkeys0, hedges0⟩ := hi0
            refine ⟨?_, ?_, ?_⟩
            · rw [List.nodup_append]
              exact ⟨hnd0, List.nodup_singleton c,
                fun x hx hx' => hcnotin (by rwa [List.mem_singleton.mp hx'] at hx)⟩
            · intro a ha
              rcases List.mem_append.mp ha with ha | ha
              · exact hkeys0 a ha
              · rcases List.mem_singleton.mp ha with rfl
                exact hkey
            · intro a ha b hedge
              rcases List.mem_append.mp ha with ha | ha
              · obtain ⟨hb, hlt⟩ := hedges0 a ha b hedge
                refine ⟨List.mem_append.mpr (Or.inl hb), ?_⟩
                rw [idxOf_append_left s0 [c] hb, idxOf_append_left s0 [c] ha]
                exact hlt
              · have he : c = a := (List.mem_singleton.mp ha).symm
                subst he
                have hb0 : b ∈ s0 := hds0 b hedge.1 hedge.2
                refine ⟨List.mem_append.mpr (Or.inl hb0), ?_⟩
                rw [idxOf_append_left s0 [c] hb0, idxOf_append_self s0 hcnotin]
                exact idxOf_lt_length s0 hb0

theorem visitDeps_ne_fuel (g : Graph)
    (visitFn : String → List String → Except TopoErr (List String))
    (HF : ∀ d sorted, hasKey g d = true →
      visitFn d sorted ≠ Except.error TopoErr.fuelExhausted) :
    ∀ ds sorted, visitDeps g visitFn ds sorted ≠ Except.error TopoErr.fuelExhausted := by
  intro ds
  induction ds with
  | nil => intro sorted h; exact Except.noConfusion h
  | cons d ds ih =>
    intro sorted h
    rw [visitDeps] at h
    by_cases hk : hasKey g d
    · rw [if_pos hk] at h
      match hv : visitFn d sorted with
      | Except.error e =>
        rw [hv] at h
        injection h with h
        subst h
        exact HF d sorted hk hv
      | Except.ok s1 =>
        rw [hv] at h
        exact ih s1 h
    · rw [if_neg hk] at h
      exact ih sorted h

theorem visit_ne_fuel (g : Graph) : ∀ fuel c tm sorted,
    tm.Nodup → (∀ x ∈ tm, hasKey g x = true) → hasKey g c = true →
    g.length + 1 ≤ fuel + tm.length →
    visit g fuel c tm sorted ≠ Except.error TopoErr.fuelExhausted := by
  intro fuel
  induction fuel with
  | zero =>
    intro c tm sorted hnd hkeys _ hbound h
    have hsub : ∀ x ∈ tm, x ∈ keysOf g := fun x hx => (hasKey_iff g x).mp (hkeys x hx)
    have hlen : tm.length ≤ (keysOf g).length := nodup_length_le tm (keysOf g) hnd hsub
    have hkeyslen : (keysOf g).length = g.length := List.length_map g Prod.fst
    omega
  | succ n ih =>
    intro c tm sorted hnd hkeys hc hbound h
    rw [visit] at h
    by_cases htm : tm.contains c
    · rw [if_pos htm] at h
      injection h with h
      exact TopoErr.noConfusion h
    · rw [if_neg htm] at h
      by_cases hsorted : sorted.contains c
      · rw [if_pos hsorted] at h
        exact Except.noConfusion h
      · rw [if_neg hsorted] at h
        have hcnottm : c ∉ tm := by simpa using htm
        have HF : ∀ d sorted', hasKey g d = true →
            visit g n d (c :: tm) sorted' ≠ Except.error TopoErr.fuelExhausted := by
          intro d sorted' hk
          refine ih d (c :: tm) sorted' (List.nodup_cons.mpr ⟨hcnottm, hnd⟩) ?_ hk ?_
          · intro x hx
            rcases List.mem_cons.mp hx with rfl | hx
            · exact hc
            · exact hkeys x hx
          · simp only [List.length_cons]
            omega
        match hvd : visitDeps g (fun d s => visit g n d (c :: tm) s) (deps g c) sorted with
        | Except.error e =>
          rw [hvd] at h
          injection h with h
          subst h
          exact visitDeps_ne_fuel g _ HF (deps g c) sorted hvd
        | Except.ok s0 =>
          rw [hvd] at h
          exact Except.noConfusion h

theorem visitDeps_cyclic (g : Graph)
    (visitFn : String → List String → Except TopoErr (List String)) :
    ∀ ds, (∀ d ∈ ds, ∀ sorted x, hasKey g d = true →
        visitFn d sorted = Except.error (TopoErr.cyclic x) →
        Relation.TransGen (Edge g) x x) →
    ∀ sorted x, visitDeps g visitFn ds sorted = Except.error (TopoErr.cyclic x) →
      Relation.TransGen (Edge g) x x := by
  intro ds
  induction ds with
  | nil =>
    intro _ sorted x h
    exact Except.noConfusion h
  | cons d ds ih =>
    intro HF sorted x h
    rw [visitDeps] at h
    by_cases hk : hasKey g d
    · rw [if_pos hk] at h
      match hv : visitFn d sorted with
      | Except.error e =>
        rw [hv] at h
        injection h with h
        subst h
        exact HF d (List.mem_cons_self d ds) sorted x hk hv
      | Except.ok s1 =>
        rw [hv] at h
        exact ih (fun d' hd' => HF d' (List.mem_cons_of_mem d hd')) s1 x h
    · rw [if_neg hk] at h
      exact ih (fun d' hd' => HF d' (List.mem_cons_of_mem d hd')) sorted x h

theorem visit_cyclic (g : Graph) : ∀ fuel c tm sorted x,
    StackPath g c tm →
    visit g fuel c tm sorted = Except.error (TopoErr.cyclic x) →
    Relation.TransGen (Edge g) x x := by
  intro fuel
  induction fuel with
  | zero =>
    intro c tm sorted x _ h
    rw [visit] at h
    injection h with h
    exact TopoErr.noConfusion h
  | succ n ih =>
    intro c tm sorted x hsp h
    rw [visit] at h
    by_cases htm : tm.contains c
    · rw [if_pos htm] at h
      injection h with h
      injection h with h
      subst h
      exact stackPath_trans g tm c hsp c (by simpa using htm)
    · rw [if_neg htm] at h
      by_cases hsorted : sorted.contains c
      · rw [if_pos hsorted] at h
        exact Except.noConfusion h
      · rw [if_neg hsorted] at h
        match hvd : visitDeps g (fun d s => visit g n d (c :: tm) s) (deps g c) sorted with
        | Except.error e =>
          rw [hvd] at h
          injection h with h
          subst h
          refine visitDeps_cyclic g _ (deps g c) ?_ sorted x hvd
          intro d hd sorted' x' hk hv
          exact ih d (c :: tm) sorted' x' ⟨⟨hd, hk⟩, hsp⟩ hv
        | Except.ok s0 =>
          rw [hvd] at h
          exact Except.noConfusion h

/-! ## Topological sort: the top-level loop -/

theorem topLoop_ok_spec (g : Graph) (fuel : Nat) : ∀ ks sorted s,
    (∀ k ∈ ks, hasKey g k = true) →
    topLoop g fuel ks sorted = Except.ok s →
    (∃ t, s = sorted ++ t) ∧ (∀ k ∈ ks, k ∈ s) ∧
    (∀ x ∈ s, x ∈ sorted ∨ hasKey g x = true) ∧
    (SortedInv g sorted → SortedInv g s) := by
  intro ks
  induction ks with
  | nil =>
    intro sorted s _ h
    injection h with h
    subst h
    exact ⟨⟨[], by simp⟩, by simp, fun x hx => Or.inl hx, id⟩
  | cons k ks ih =>
    intro sorted s hkeys h
    rw [topLoop] at h
    match hv : visit g fuel k [] sorted with
    | Except.error e => rw [hv] at h; exact Except.noConfusion h
    | Except.ok s1 =>
      rw [hv] at h
      obtain ⟨⟨t1, ht1⟩, hk1, hnew1, hinv1⟩ :=
        visit_ok_spec g fuel k [] sorted s1 (hkeys k (List.mem_cons_self k ks)) hv
      obtain ⟨⟨t2, ht2⟩, hks2, hnew2, hinv2⟩ :=
        ih s1 s (fun x hx => hkeys x (List.mem_cons_of_mem k hx)) h
      refine ⟨⟨t1 ++ t2, by rw [ht2, ht1, List.append_assoc]⟩, ?_, ?_,
        fun hi => hinv2 (hinv1 hi)⟩
      · intro k' hk'
        rcases List.mem_cons.mp hk' with rfl | hk'
        · rw [ht2]; exact List.mem_append.mpr (Or.inl hk1)
        · exact hks2 k' hk'
      · intro x hx
        rcases hnew2 x hx with hx1 | hx1
        · rcases hnew1 x hx1 with h2 | h2
          · exact Or.inl h2
          · exact Or.inr h2.1
        · exact Or.inr hx1

theorem topLoop_ne_fuel (g : Graph) : ∀ ks sorted,
    (∀ k ∈ ks, hasKey g k = true) →
    topLoop g (g.length + 1) ks sorted ≠ Except.error TopoErr.fuelExhausted := by
  intro ks
  induction ks with
  | nil => intro sorted _ h; exact Except.noConfusion h
  | cons k ks ih =>
    intro sorted hkeys h
    rw [topLoop] at h
    match hv : visit g (g.length + 1) k [] sorted with
    | Except.error e =>
      rw [hv] at h
      injection h with h
      subst h
      exact visit_ne_fuel g (g.length + 1) k [] sorted List.nodup_nil (by simp)
        (hkeys k (List.mem_cons_self k ks)) (by simp) hv
    | Except.ok s1 =>
      rw [hv] at h
      exact ih s1 (fun x hx => hkeys x (List.mem_cons_of_mem k hx)) h

theorem topLoop_cyclic (g : Graph) (fuel : Nat) : ∀ ks sorted x,
    topLoop g fuel ks sorted = Except.error (TopoErr.cyclic x) →
    Relation.TransGen (Edge g) x x := by
  intro ks
  induction ks with
  | nil => intro sorted x h; exact Except.noConfusion h
  | cons k ks ih =>
    intro sorted x h
    rw [topLoop] at h
    match hv : visit g fuel k [] sorted with
    | Except.error e =>
      rw [hv] at h
      injection h with h
      subst h
      exact visit_cyclic g fuel k [] sorted x trivial hv
    | Except.ok s1 =>
      rw [hv] at h
      exact ih s1 x h

/-! ## Topological sort: unknown names do not matter -/

theorem hasKey_restrict (g : Graph) (a : String) :
    hasKey (restrictGraph g) a = hasKey g a := by
  unfold hasKey restrictGraph
  rw [List.any_map]
  rfl

theorem deps_restrict (g : Graph) (a : String) :
    deps (restrictGraph g) a = (deps g a).filter (fun d => hasKey g d) := by
  unfold deps restrictGraph
  rw [List.find?_map]
  have hpred : List.find?
      ((fun p => p.1 == a) ∘ fun p => (p.1, p.2.filter (fun d => hasKey g d))) g =
      g.find? (fun q => q.1 == a) := rfl
  rw [hpred]
  cases hf : g.find? (fun q => q.1 == a) with
  | none => rfl
  | some pr => rfl

theorem visitDeps_cons_pos (g : Graph)
    (visitFn : String → List String → Except TopoErr (List String))
    (d : String) (ds : List String) (sorted : List String)
    (hk : hasKey g d = true) :
    visitDeps g visitFn (d :: ds) sorted =
      match visitFn d sorted with
      | Except.error e => Except.error e
      | Except.ok s => visitDeps g visitFn ds s := by
  rw [visitDeps, if_pos hk]

theorem visitDeps_cons_neg (g : Graph)
    (visitFn : String → List String → Except TopoErr (List String))
    (d : String) (ds : List String) (sorted : List String)
    (hk : ¬ hasKey g d = true) :
    visitDeps g visitFn (d :: ds) sorted = visitDeps g visitFn ds sorted := by
  rw [visitDeps, if_neg hk]

theorem visitDeps_filter (g : Graph)
    (visitFn : String → List String → Except TopoErr (List String)) :
    ∀ ds sorted, visitDeps g visitFn (ds.filter (fun d => hasKey g d)) sorted =
      visitDeps g visitFn ds sorted := by
  intro ds
  induction ds with
  | nil => intro sorted; rfl
  | cons d ds ih =>
    intro sorted
    by_cases hk : hasKey g d
    · rw [List.filter_cons_of_pos hk, visitDeps_cons_pos g visitFn d _ sorted hk,
        visitDeps_cons_pos g visitFn d ds sorted hk]
      cases hv : visitFn d sorted with
      | error e => rfl
      | ok s1 => exact ih s1
    · rw [List.filter_cons_of_neg (by simpa using hk),
        visitDeps_cons_neg g visitFn d ds sorted hk]
      exact ih sorted

theorem visitDeps_congrFn (g : Graph)
    (f f' : String → List String → Except TopoErr (List String))
    (hff : ∀ d sorted, f d sorted = f' d sorted) :
    ∀ ds sorted, visitDeps g f ds sorted = visitDeps g f' ds sorted := by
  intro ds
  induction ds with
  | nil => intro sorted; rfl
  | cons d ds ih =>
    intro sorted
    by_cases hk : hasKey g d
    · rw [visitDeps_cons_pos g f d ds sorted hk, visitDeps_cons_pos g f' d ds sorted hk,
        hff d sorted]
      cases f' d sorted with
      | error e => rfl
      | ok s1 => exact ih s1
    · rw [visitDeps_cons_neg g f d ds sorted hk, visitDeps_cons_neg g f' d ds sorted hk]
      exact ih sorted

theorem visitDeps_graph_restrict (g : Graph)
    (f : String → List String → Except TopoErr (List String)) :
    ∀ ds sorted, visitDeps (restrictGraph g) f ds sorted = visitDeps g f ds sorted := by
  intro ds
  induction ds with
  | nil => intro sorted; rfl
  | cons d ds ih =>
    intro sorted
    by_cases hk : hasKey g d
    · have hk' : hasKey (restrictGraph g) d = true := by rw [hasKey_restrict]; exact hk
      rw [visitDeps_cons_pos (restrictGraph g) f d ds sorted hk',
        visitDeps_cons_pos g f d ds sorted hk]
      cases f d sorted with
      | error e => rfl
      | ok s1 => exact ih s1
    · have hk' : ¬ hasKey (restrictGraph g) d = true := by rw [hasKey_restrict]; exact hk
      rw [visitDeps_cons_neg (restrictGraph g) f d ds sorted hk',
        visitDeps_cons_neg g f d ds sorted hk]
      exact ih sorted

theorem visit_restrict (g : Graph) : ∀ fuel c tm sorted,
    visit (restrictGraph g) fuel c tm sorted = visit g fuel c tm sorted := by
  intro fuel
  induction fuel with
  | zero => intro c tm sorted; rfl
  | succ n ih =>
    intro c tm sorted
    rw [visit, visit]
    by_cases htm : tm.contains c
    · rw [if_pos htm, if_pos htm]
    · rw [if_neg htm, if_neg htm]
      by_cases hsorted : sorted.contains c
      · rw [if_pos hsorted, if_pos hsorted]
      · rw [if_neg hsorted, if_neg hsorted]
        have h1 : visitDeps (restrictGraph g)
            (fun d s => visit (restrictGraph g) n d (c :: tm) s)
            (deps (restrictGraph g) c) sorted =
            visitDeps g (fun d s => visit g n d (c :: tm) s) (deps g c) sorted := by
          rw [visitDeps_graph_restrict g _ (deps (restrictGraph g) c) sorted]
          rw [visitDeps_congrFn g _ (fun d s => visit g n d (c :: tm) s)
            (fun d s => ih d (c :: tm) s) (deps (restrictGraph g) c) sorted]
          rw [deps_restrict, visitDeps_filter]
        rw [h1]

theorem performTopologicalSort_restrict (g : Graph) :
    performTopologicalSort (restrictGraph g) = performTopologicalSort g := by
  unfold performTopologicalSort
  have hkeys : keysOf (restrictGraph g) = keysOf g := by
    unfold keysOf restrictGraph
    rw [List.map_map]
    rfl
  have hlen : (restrictGraph g).length = g.length := List.length_map g _
  rw [hkeys, hlen]
  have hgen : ∀ ks sorted, topLoop (restrictGraph g) (g.length + 1) ks sorted =
      topLoop g (g.length + 1) ks sorted := by
    intro ks
    induction ks with
    | nil => intro sorted; rfl
    | cons k ks ih =>
      intro sorted
      rw [topLoop, topLoop, visit_restrict]
      cases visit g (g.length + 1) k [] sorted with
      | error e => rfl
      | ok s1 => exact ih s1
  exact hgen (keysOf g) []

/-- C1: for every acyclic dependency mapping, the topological sort returns
a duplicate-free total order over exactly the mapping's key set in which
every followed edge's target appears strictly before its source, and
dependencies on names that are not keys are ignored: removing them changes
neither the result nor success. -/
theorem performTopologicalSort_spec (g : Graph)
    (hacyc : ∀ a, ¬ Relation.TransGen (Edge g) a a) :
    ∃ l, performTopologicalSort g = Except.ok l ∧ l.Nodup ∧
      (∀ x, x ∈ l ↔ x ∈ keysOf g) ∧
      (∀ a b, Edge g a b → idxOf b l < idxOf a l) ∧
      performTopologicalSort (restrictGraph g) = performTopologicalSort g := by
  have hkeysall : ∀ k ∈ keysOf g, hasKey g k = true := fun k hk => (hasKey_iff g k).mpr hk
  match hres : topLoop g (g.length + 1) (keysOf g) [] with
  | Except.error TopoErr.fuelExhausted =>
    exact absurd hres (topLoop_ne_fuel g (keysOf g) [] hkeysall)
  | Except.error (TopoErr.cyclic c) =>
    exact absurd (topLoop_cyclic g (g.length + 1) (keysOf g) [] c hres) (hacyc c)
  | Except.ok l =>
    obtain ⟨_, hall, hnew, hinv⟩ :=
      topLoop_ok_spec g (g.length + 1) (keysOf g) [] l hkeysall hres
    have hinvl : SortedInv g l := hinv ⟨List.nodup_nil, by simp, by simp⟩
    refine ⟨l, hres, hinvl.1, ?_, ?_, performTopologicalSort_restrict g⟩
    · intro x
      constructor
      · intro hx
        rcases hnew x hx with h | h
        · cases h
        · exact (hasKey_iff g x).mp h
      · intro hx
        exact hall x hx
    · intro a b hedge
      have ha : a ∈ l := hall a (edge_key_left g a b hedge)
      exact (hinvl.2.2 a ha b hedge).2

theorem gW_edge_rank : ∀ a b, Edge gW a b → rankW b < rankW a := by
  intro a b hedge
  obtain ⟨hdep, hkeyb⟩ := hedge
  by_cases ha : "article" = a
  · have hdep' : b ∈ ["button", "card", "ghost"] := by
      rw [← ha] at hdep
      rw [show deps gW "article" = ["button", "card", "ghost"] from rfl] at hdep
      exact hdep
    have hb : b ≠ "article" := by
      intro hbe
      rw [hbe] at hdep'
      exact absurd hdep' (by decide)
    rw [← ha]
    have h1 : rankW b = 0 := by simp [rankW, hb]
    have h2 : rankW "article" = 1 := by simp [rankW]
    rw [h1, h2]
    exact Nat.zero_lt_one
  · exfalso
    by_cases hb2 : "button" = a
    · rw [← hb2] at hdep
      rw [show deps gW "button" = [] from rfl] at hdep
      cases hdep
    · by_cases hc : "card" = a
      · rw [← hc] at hdep
        rw [show deps gW "card" = [] from rfl] at hdep
        cases hdep
      · have hkey : hasKey gW a = false := by
          unfold hasKey gW
          simp [ha, hb2, hc]
        rw [deps_eq_nil_of_not_hasKey gW a hkey] at hdep
        cases hdep

theorem performTopologicalSort_spec_witness :
    ∃ l, performTopologicalSort gW = Except.ok l ∧ l.Nodup ∧
      (∀ x, x ∈ l ↔ x ∈ keysOf gW) ∧
      (∀ a b, Edge gW a b → idxOf b l < idxOf a l) ∧
      performTopologicalSort (restrictGraph gW) = performTopologicalSort gW :=
  performTopologicalSort_spec gW (acyclic_of_rank gW rankW gW_edge_rank)

/-- C2: for every dependency mapping containing a cycle among its keys,
the topological sort raises the cyclic-dependency error rather than
returning any order, and the error names a component that lies on a
cycle. -/
theorem performTopologicalSort_cyclic_spec (g : Graph)
    (hcyc : ∃ a, Relation.TransGen (Edge g) a a) :
    ∃ c, performTopologicalSort g = Except.error (TopoErr.cyclic c) ∧
      Relation.TransGen (Edge g) c c ∧
      topoErrorMessage (TopoErr.cyclic c) =
        "Cyclic dependency detected involving component '" ++ c ++ "'" := by
  obtain ⟨a, ha⟩ := hcyc
  have hkeysall : ∀ k ∈ keysOf g, hasKey g k = true := fun k hk => (hasKey_iff g k).mpr hk
  match hres : topLoop g (g.length + 1) (keysOf g) [] with
  | Except.error TopoErr.fuelExhausted =>
    exact absurd hres (topLoop_ne_fuel g (keysOf g) [] hkeysall)
  | Except.error (TopoErr.cyclic c) =>
    exact ⟨c, hres, topLoop_cyclic g (g.length + 1) (keysOf g) [] c hres, rfl⟩
  | Except.ok l =>
    obtain ⟨_, hall, _, hinv⟩ :=
      topLoop_ok_spec g (g.length + 1) (keysOf g) [] l hkeysall hres
    have hinvl : SortedInv g l := hinv ⟨List.nodup_nil, by simp, by simp⟩
    exact absurd ha (sortedInv_no_cycle g l hinvl (fun k hk => hall k hk) a)

theorem performTopologicalSort_cyclic_spec_witness :
    ∃ c, performTopologicalSort gC = Except.error (TopoErr.cyclic c) ∧
      Relation.TransGen (Edge gC) c c ∧
      topoErrorMessage (TopoErr.cyclic c) =
        "Cyclic dependency detected involving component '" ++ c ++ "'" :=
  performTopologicalSort_cyclic_spec gC
    ⟨"a", Relation.TransGen.head (show Edge gC "a" "b" by decide)
      (Relation.TransGen.single (show Edge gC "b" "a" by decide))⟩

/-! ## Usage analysis -/

theorem hasReg_iff (reg : NativeRegistry) (i : String) :
    hasReg reg i = true ↔ i ∈ reg.map Prod.fst := by
  unfold hasReg
  rw [List.any_eq_true]
  constructor
  · rintro ⟨q, hq, hqa⟩
    rw [beq_iff_eq] at hqa
    subst hqa
    exact List.mem_map.mpr ⟨q, hq, rfl⟩
  · intro h
    obtain ⟨q, hq, rfl⟩ := List.mem_map.mp h
    exact ⟨q, hq, beq_self_eq_true _⟩

theorem markAsUsed_mono (reg : NativeRegistry) (used : List String) (i : String) :
    ∀ x ∈ used, x ∈ markAsUsed reg used i := by
  intro x hx
  unfold markAsUsed
  by_cases h : contentOf reg i ≠ "" ∧ ¬ used.contains i
  · rw [if_pos h]; exact List.mem_append.mpr (Or.inl hx)
  · rw [if_neg h]; exact hx

theorem markAsUsed_sub (reg : NativeRegistry) (used : List String) (i : String) :
    ∀ x ∈ markAsUsed reg used i, x ∈ used ∨ x = i := by
  intro x hx
  unfold markAsUsed at hx
  by_cases h : contentOf reg i ≠ "" ∧ ¬ used.contains i
  · rw [if_pos h] at hx
    rcases List.mem_append.mp hx with h' | h'
    · exact Or.inl h'
    · exact Or.inr (List.mem_singleton.mp h')
  · rw [if_neg h] at hx
    exact Or.inl hx

theorem markAsUsed_mem (reg : NativeRegistry) (used : List String) (i : String)
    (hc : contentOf reg i ≠ "") : i ∈ markAsUsed reg used i := by
  unfold markAsUsed
  by_cases h : used.contains i
  · have hmem : i ∈ used := List.elem_iff.mp h
    rw [if_neg (fun hcon => hcon.2 h)]
    exact hmem
  · rw [if_pos ⟨hc, h⟩]
    exact List.mem_append.mpr (Or.inr (List.mem_singleton.mpr rfl))

theorem mapSet_forall {P : String × String → Prop} (m : List (String × String))
    (k v : String) (hm : ∀ q ∈ m, P q) (hkv : P (k, v)) :
    ∀ q ∈ mapSet m k v, P q := by
  intro q hq
  unfold mapSet at hq
  by_cases hany : m.any (fun q => q.1 == k)
  · rw [if_pos hany] at hq
    obtain ⟨q', hq', hq'e⟩ := List.mem_map.mp hq
    by_cases hqk : (q'.1 == k) = true
    · rw [if_pos hqk] at hq'e
      rw [← hq'e]
      exact hkv
    · rw [if_neg hqk] at hq'e
      rw [← hq'e]
      exact hm q' hq'
  · rw [if_neg hany] at hq
    rcases List.mem_append.mp hq with h | h
    · exact hm q h
    · have he := List.mem_singleton.mp h
      rw [he]
      exact hkv

theorem nativeSchemaReferences_inv (reg : NativeRegistry) :
    ∀ q ∈ nativeSchemaReferences reg,
      q.1 = interfaceNameToSchemaName q.2 ∧ q.2 ∈ reg.map Prod.fst := by
  unfold nativeSchemaReferences
  suffices h : ∀ (l acc : List (String × String)),
      (∀ p ∈ l, p.1 ∈ reg.map Prod.fst) →
      (∀ q ∈ acc, q.1 = interfaceNameToSchemaName q.2 ∧ q.2 ∈ reg.map Prod.fst) →
      ∀ q ∈ l.foldl (fun m p => mapSet m (interfaceNameToSchemaName p.1) p.1) acc,
        q.1 = interfaceNameToSchemaName q.2 ∧ q.2 ∈ reg.map Prod.fst by
    exact h reg [] (fun p hp => List.mem_map.mpr ⟨p, hp, rfl⟩) (by simp)
  intro l
  induction l with
  | nil => intro acc _ hacc q hq; exact hacc q hq
  | cons p l ih =>
    intro acc hl hacc q hq
    rw [List.foldl_cons] at hq
    refine ih (mapSet acc (interfaceNameToSchemaName p.1) p.1)
      (fun p' hp' => hl p' (List.mem_cons_of_mem p hp'))
      (mapSet_forall acc _ _ hacc ⟨rfl, hl p (List.mem_cons_self p l)⟩) q hq

theorem nativeReachable_step (idents : String → List String) (reg : NativeRegistry)
    (compText : String) (c j : String)
    (hc : NativeReachable idents reg compText c) (he : RefEdge idents reg c j) :
    NativeReachable idents reg compText j := by
  obtain ⟨i0, hk, hd, hrt⟩ := hc
  exact ⟨i0, hk, hd, Relation.ReflTransGen.tail hrt he⟩

theorem scanIdentifiers_sound (idents : String → List String) (reg : NativeRegistry)
    (compText : String) (recurse : String → List String → List String)
    (Hrec : ∀ i used, NativeReachable idents reg compText i →
      (∀ x ∈ used, NativeReachable idents reg compText x) →
      ∀ x ∈ recurse (contentOf reg i) used, NativeReachable idents reg compText x) :
    ∀ ids (c0 : String) used, NativeReachable idents reg compText c0 →
      (∀ id ∈ ids, id ∈ idents (contentOf reg c0)) →
      (∀ x ∈ used, NativeReachable idents reg compText x) →
      ∀ x ∈ scanIdentifiers reg recurse ids used,
        NativeReachable idents reg compText x := by
  intro ids
  induction ids with
  | nil => intro c0 used _ _ hused x hx; exact hused x hx
  | cons id ids ih =>
    intro c0 used hc0 hids hused x hx
    rw [scanIdentifiers] at hx
    match hf : (nativeSchemaReferences reg).find? (fun q => q.1 == id) with
    | none =>
      rw [hf] at hx
      exact ih c0 used hc0 (fun i hi => hids i (List.mem_cons_of_mem id hi)) hused x hx
    | some q =>
      rw [hf] at hx
      have hx' : x ∈ (if hasReg reg q.2 && !used.contains q.2 then
          scanIdentifiers reg recurse ids (recurse (contentOf reg q.2) (markAsUsed reg used q.2))
        else scanIdentifiers reg recurse ids used) := hx
      by_cases hguard : (hasReg reg q.2 && !used.contains q.2) = true
      · rw [if_pos hguard] at hx' 
        obtain ⟨hinv1, _⟩ :=
          nativeSchemaReferences_inv reg q (List.mem_of_find?_eq_some hf)
        have hqid : q.1 = id := by
          have := List.find?_some hf
          simpa [beq_iff_eq] using this
        have hkeyq : hasReg reg q.2 = true := by
          have := Bool.and_eq_true_iff.mp hguard
          exact this.1
        have hedge : RefEdge idents reg c0 q.2 := by
          refine ⟨hkeyq, ?_⟩
          rw [← hinv1, hqid]
          exact List.elem_iff.mpr (hids id (List.mem_cons_self id ids))
        have hq2 : NativeReachable idents reg compText q.2 :=
          nativeReachable_step idents reg compText c0 q.2 hc0 hedge
        have hused1 : ∀ y ∈ markAsUsed reg used q.2,
            NativeReachable idents reg compText y := by
          intro y hy
          rcases markAsUsed_sub reg used q.2 y hy with h' | h'
          · exact hused y h'
          · rw [h']; exact hq2
        have hused2 : ∀ y ∈ recurse (contentOf reg q.2) (markAsUsed reg used q.2),
            NativeReachable idents reg compText y :=
          Hrec q.2 (markAsUsed reg used q.2) hq2 hused1
        exact ih c0 _ hc0 (fun i hi => hids i (List.mem_cons_of_mem id hi)) hused2 x hx'
      · rw [if_neg hguard] at hx'
        exact ih c0 used hc0 (fun i hi => hids i (List.mem_cons_of_mem id hi)) hused x hx' 

theorem findIndirectDependencies_sound (idents : String → List String)
    (reg : NativeRegistry) (compText : String) : ∀ fuel i used,
    NativeReachable idents reg compText i →
    (∀ x ∈ used, NativeReachable idents reg compText x) →
    ∀ x ∈ findIndirectDependencies idents reg fuel (contentOf reg i) used,
      NativeReachable idents reg compText x := by
  intro fuel
  induction fuel with
  | zero => intro i used _ hused x hx; exact hused x hx
  | succ n ih =>
    intro i used hi hused x hx
    rw [findIndirectDependencies] at hx
    exact scanIdentifiers_sound idents reg compText _ ih
      (idents (contentOf reg i)) i used hi (fun id hid => hid) hused x hx

theorem phase1_sound (idents : String → List String) (reg : NativeRegistry)
    (compText : String) :
    ∀ (refsl : List (String × String)) (acc : List String),
      (∀ q ∈ refsl, q.1 = interfaceNameToSchemaName q.2 ∧ q.2 ∈ reg.map Prod.fst) →
      (∀ x ∈ acc, NativeReachable idents reg compText x) →
      ∀ x ∈ refsl.foldl (fun used q =>
          if (idents compText).contains q.1 then markAsUsed reg used q.2 else used) acc,
        NativeReachable idents reg compText x := by
  intro refsl
  induction refsl with
  | nil => intro acc _ hacc x hx; exact hacc x hx
  | cons q refsl ih =>
    intro acc hinv hacc x hx
    rw [List.foldl_cons] at hx
    refine ih _ (fun q' hq' => hinv q' (List.mem_cons_of_mem q hq')) ?_ x hx
    obtain ⟨hq1, hq2⟩ := hinv q (List.mem_cons_self q refsl)
    by_cases hcond : (idents compText).contains q.1 = true
    · rw [if_pos hcond]
      intro y hy
      rcases markAsUsed_sub reg acc q.2 y hy with h' | h'
      · exact hacc y h'
      · rw [h']
        refine ⟨q.2, (hasReg_iff reg q.2).mpr hq2, ?_, Relation.ReflTransGen.refl⟩
        unfold DirectlyUsed
        rw [← hq1]
        exact hcond
    · rw [if_neg hcond]
      exact hacc

theorem foldl_find_sound (idents : String → List String) (reg : NativeRegistry)
    (compText : String) (fuel : Nat) :
    ∀ (l : List String) (used : List String),
      (∀ i ∈ l, NativeReachable idents reg compText i) →
      (∀ x ∈ used, NativeReachable idents reg compText x) →
      ∀ x ∈ l.foldl (fun used i =>
          findIndirectDependencies idents reg fuel (contentOf reg i) used) used,
        NativeReachable idents reg compText x := by
  intro l
  induction l with
  | nil => intro used _ hused x hx; exact hused x hx
  | cons i l ih =>
    intro used hl hused x hx
    rw [List.foldl_cons] at hx
    refine ih _ (fun i' hi' => hl i' (List.mem_cons_of_mem i hi')) ?_ x hx
    exact findIndirectDependencies_sound idents reg compText fuel i used
      (hl i (List.mem_cons_self i l)) hused

theorem analyzeNative_sound (idents : String → List String) (reg : NativeRegistry)
    (compText : String) :
    ∀ x ∈ analyzeNativeSchemaDependencies idents reg compText,
      NativeReachable idents reg compText x := by
  intro x hx
  have hdirect : ∀ y ∈ (nativeSchemaReferences reg).foldl (fun used q =>
      if (idents compText).contains q.1 then markAsUsed reg used q.2 else used) [],
      NativeReachable idents reg compText y :=
    phase1_sound idents reg compText (nativeSchemaReferences reg) []
      (nativeSchemaReferences_inv reg) (by simp)
  exact foldl_find_sound idents reg compText (reg.length + 1) _ _ hdirect hdirect x hx

theorem scanIdentifiers_mono (reg : NativeRegistry)
    (recurse : String → List String → List String)
    (Hrec : ∀ content used, ∀ x ∈ used, x ∈ recurse content used) :
    ∀ ids used, ∀ x ∈ used, x ∈ scanIdentifiers reg recurse ids used := by
  intro ids
  induction ids with
  | nil => intro used x hx; exact hx
  | cons id ids ih =>
    intro used x hx
    rw [scanIdentifiers]
    cases hf : (nativeSchemaReferences reg).find? (fun q => q.1 == id) with
    | none => exact ih used x hx
    | some q =>
      show x ∈ (if hasReg reg q.2 && !used.contains q.2 then
          scanIdentifiers reg recurse ids (recurse (contentOf reg q.2) (markAsUsed reg used q.2))
        else scanIdentifiers reg recurse ids used)
      by_cases hguard : (hasReg reg q.2 && !used.contains q.2) = true
      · rw [if_pos hguard]
        exact ih _ x (Hrec _ _ x (markAsUsed_mono reg used q.2 x hx))
      · rw [if_neg hguard]
        exact ih used x hx

theorem findIndirectDependencies_mono (idents : String → List String)
    (reg : NativeRegistry) : ∀ fuel content used, ∀ x ∈ used,
    x ∈ findIndirectDependencies idents reg fuel content used := by
  intro fuel
  induction fuel with
  | zero => intro content used x hx; exact hx
  | succ n ih =>
    intro content used x hx
    rw [findIndirectDependencies]
    exact scanIdentifiers_mono reg _ (fun content' used' => ih content' used')
      (idents content) used x hx

theorem scanIdentifiers_hits (reg : NativeRegistry)
    (recurse : String → List String → List String)
    (Hrec : ∀ content used, ∀ x ∈ used, x ∈ recurse content used)
    (i : String) (hcnt : contentOf reg i ≠ "") (hkey : hasReg reg i = true)
    (hfind : (nativeSchemaReferences reg).find?
        (fun q => q.1 == interfaceNameToSchemaName i) =
      some (interfaceNameToSchemaName i, i)) :
    ∀ ids used, interfaceNameToSchemaName i ∈ ids →
      i ∈ scanIdentifiers reg recurse ids used := by
  intro ids
  induction ids with
  | nil => intro used h; cases h
  | cons id ids ih =>
    intro used hmem
    rcases List.mem_cons.mp hmem with heq | hmem'
    · rw [scanIdentifiers, ← heq, hfind]
      show i ∈ (if hasReg reg i && !used.contains i then
          scanIdentifiers reg recurse ids (recurse (contentOf reg i) (markAsUsed reg used i))
        else scanIdentifiers reg recurse ids used)
      by_cases hused : used.contains i
      · rw [if_neg (by
          intro hcon
          have h2 := (Bool.and_eq_true_iff.mp hcon).2
          rw [hused] at h2
          simp at h2)]
        exact scanIdentifiers_mono reg recurse Hrec ids used i (List.elem_iff.mp hused)
      · have hcf : used.contains i = false := by
          cases hcb : used.contains i
          · rfl
          · exact absurd hcb hused
        rw [if_pos (by
          simp [hkey, hcf]
          exact fun hm => hused (List.elem_iff.mpr hm))]
        exact scanIdentifiers_mono reg recurse Hrec ids _ i
          (Hrec _ _ i (markAsUsed_mem reg used i hcnt))
    · rw [scanIdentifiers]
      cases hf : (nativeSchemaReferences reg).find? (fun q => q.1 == id) with
      | none => exact ih used hmem'
      | some q =>
        show i ∈ (if hasReg reg q.2 && !used.contains q.2 then
            scanIdentifiers reg recurse ids (recurse (contentOf reg q.2) (markAsUsed reg used q.2))
          else scanIdentifiers reg recurse ids used)
        by_cases hguard : (hasReg reg q.2 && !used.contains q.2) = true
        · rw [if_pos hguard]
          exact ih _ hmem'
        · rw [if_neg hguard]
          exact ih used hmem'

theorem findIndirectDependencies_hits (idents : String → List String)
    (reg : NativeRegistry) (fuelp : Nat) (content : String) (i : String)
    (hcnt : contentOf reg i ≠ "") (hkey : hasReg reg i = true)
    (hfind : (nativeSchemaReferences reg).find?
        (fun q => q.1 == interfaceNameToSchemaName i) =
      some (interfaceNameToSchemaName i, i))
    (hmem : interfaceNameToSchemaName i ∈ idents content) :
    ∀ used, i ∈ findIndirectDependencies idents reg (fuelp + 1) content used := by
  intro used
  rw [findIndirectDependencies]
  exact scanIdentifiers_hits reg _
    (fun content' used' => findIndirectDependencies_mono idents reg fuelp content' used')
    i hcnt hkey hfind (idents content) used hmem

theorem phase1_fold_mono (idents : String → List String) (reg : NativeRegistry)
    (compText : String) :
    ∀ (refsl : List (String × String)) (acc : List String), ∀ x ∈ acc,
      x ∈ refsl.foldl (fun used q =>
        if (idents compText).contains q.1 then markAsUsed reg used q.2 else used) acc := by
  intro refsl
  induction refsl with
  | nil => intro acc x hx; exact hx
  | cons q refsl ih =>
    intro acc x hx
    rw [List.foldl_cons]
    by_cases hcond : (idents compText).contains q.1 = true
    · rw [if_pos hcond]
      exact ih _ x (markAsUsed_mono reg acc q.2 x hx)
    · rw [if_neg hcond]
      exact ih acc x hx

theorem phase1_mem (idents : String → List String) (reg : NativeRegistry)
    (compText : String) (i : String) (hcnt : contentOf reg i ≠ "")
    (hdir : (idents compText).contains (interfaceNameToSchemaName i) = true) :
    ∀ (refsl : List (String × String)) (acc : List String),
      (interfaceNameToSchemaName i, i) ∈ refsl →
      i ∈ refsl.foldl (fun used q =>
        if (idents compText).contains q.1 then markAsUsed reg used q.2 else used) acc := by
  intro refsl
  induction refsl with
  | nil => intro acc h; cases h
  | cons q refsl ih =>
    intro acc hmem
    rw [List.foldl_cons]
    rcases List.mem_cons.mp hmem with heq | hmem'
    · rw [← heq]
      rw [if_pos hdir]
      exact phase1_fold_mono idents reg compText refsl _ i
        (markAsUsed_mem reg acc i hcnt)
    · by_cases hcond : (idents compText).contains q.1 = true
      · rw [if_pos hcond]
        exact ih _ hmem'
      · rw [if_neg hcond]
        exact ih acc hmem'

theorem foldl_find_mono (idents : String → List String) (reg : NativeRegistry)
    (fuel : Nat) : ∀ (l : List String) (used : List String), ∀ x ∈ used,
    x ∈ l.foldl (fun used i =>
      findIndirectDependencies idents reg fuel (contentOf reg i) used) used := by
  intro l
  induction l with
  | nil => intro used x hx; exact hx
  | cons i l ih =>
    intro used x hx
    rw [List.foldl_cons]
    exact ih _ x (findIndirectDependencies_mono idents reg fuel (contentOf reg i) used x hx)

theorem foldl_find_mem_of (idents : String → List String) (reg : NativeRegistry)
    (X Y : String) (fuel : Nat)
    (hY : ∀ used, Y ∈ findIndirectDependencies idents reg fuel (contentOf reg X) used) :
    ∀ (l : List String) (used : List String), X ∈ l →
      Y ∈ l.foldl (fun used i =>
        findIndirectDependencies idents reg fuel (contentOf reg i) used) used := by
  intro l
  induction l with
  | nil => intro used h; cases h
  | cons i l ih =>
    intro used hmem
    rw [List.foldl_cons]
    rcases List.mem_cons.mp hmem with heq | hmem'
    · rw [← heq]
      exact foldl_find_mono idents reg fuel l _ Y (hY used)
    · exact ih _ hmem'

theorem nativeSchemaReferences_eq (reg : NativeRegistry)
    (hsn : (reg.map (fun p => interfaceNameToSchemaName p.1)).Nodup) :
    nativeSchemaReferences reg =
      reg.map (fun p => (interfaceNameToSchemaName p.1, p.1)) := by
  unfold nativeSchemaReferences
  suffices h : ∀ (l acc : List (String × String)),
      (l.map (fun p => interfaceNameToSchemaName p.1)).Nodup →
      (∀ p ∈ l, ∀ q ∈ acc, q.1 ≠ interfaceNameToSchemaName p.1) →
      l.foldl (fun m p => mapSet m (interfaceNameToSchemaName p.1) p.1) acc =
        acc ++ l.map (fun p => (interfaceNameToSchemaName p.1, p.1)) by
    simpa using h reg [] hsn (by simp)
  intro l
  induction l with
  | nil => intro acc _ _; simp
  | cons p l ih =>
    intro acc hnd hfresh
    rw [List.foldl_cons]
    have hany : acc.any (fun q => q.1 == interfaceNameToSchemaName p.1) = false := by
      rw [List.any_eq_false]
      intro q hq
      simp only [beq_iff_eq]
      exact hfresh p (List.mem_cons_self p l) q hq
    have hset : mapSet acc (interfaceNameToSchemaName p.1) p.1 =
        acc ++ [(interfaceNameToSchemaName p.1, p.1)] := by
      unfold mapSet
      rw [if_neg (by simp [hany])]
    rw [hset]
    have hndtail : (l.map (fun p => interfaceNameToSchemaName p.1)).Nodup :=
      (List.nodup_cons.mp (by simpa using hnd)).2
    have hhead : interfaceNameToSchemaName p.1 ∉
        l.map (fun p => interfaceNameToSchemaName p.1) :=
      (List.nodup_cons.mp (by simpa using hnd)).1
    rw [ih (acc ++ [(interfaceNameToSchemaName p.1, p.1)]) hndtail ?_]
    · rw [List.map_cons, List.append_assoc, List.singleton_append]
    · intro p' hp' q hq
      rcases List.mem_append.mp hq with hq' | hq'
      · exact hfresh p' (List.mem_cons_of_mem p hp') q hq'
      · have he := List.mem_singleton.mp hq'
        rw [he]
        intro hcon
        have hcon' : interfaceNameToSchemaName p.1 = interfaceNameToSchemaName p'.1 := hcon
        refine hhead ?_
        rw [hcon']
        exact List.mem_map.mpr ⟨p', hp', rfl⟩

theorem keys_nodup_of_schemaNames_nodup (reg : NativeRegistry)
    (hsn : (reg.map (fun p => interfaceNameToSchemaName p.1)).Nodup) :
    (reg.map Prod.fst).Nodup := by
  refine List.Nodup.of_map interfaceNameToSchemaName ?_
  rw [List.map_map]
  exact hsn

theorem contentOf_eq (reg : NativeRegistry) (hk : (reg.map Prod.fst).Nodup)
    (Y cY : String) (hmem : (Y, cY) ∈ reg) : contentOf reg Y = cY := by
  unfold contentOf
  cases hf : reg.find? (fun q => q.1 == Y) with
  | none =>
    exfalso
    have := List.find?_eq_none.mp hf (Y, cY) hmem
    simp at this
  | some p0 =>
    have hp : (p0.1 == Y) = true := by simpa using List.find?_some hf
    rw [beq_iff_eq] at hp
    have hp0mem : p0 ∈ reg := List.mem_of_find?_eq_some hf
    have he : p0 = (Y, cY) := List.inj_on_of_nodup_map hk hp0mem hmem (by simpa using hp)
    rw [he]

theorem refs_find_self (reg : NativeRegistry)
    (hsn : (reg.map (fun p => interfaceNameToSchemaName p.1)).Nodup)
    (Y cY : String) (hmem : (Y, cY) ∈ reg) :
    (nativeSchemaReferences reg).find?
        (fun q => q.1 == interfaceNameToSchemaName Y) =
      some (interfaceNameToSchemaName Y, Y) := by
  rw [nativeSchemaReferences_eq reg hsn, List.find?_map]
  have hpred : ((fun q : String × String => q.1 == interfaceNameToSchemaName Y) ∘
      (fun p : String × String => (interfaceNameToSchemaName p.1, p.1))) =
      fun p : String × String =>
        interfaceNameToSchemaName p.1 == interfaceNameToSchemaName Y := rfl
  rw [hpred]
  cases hf : reg.find? (fun p =>
      interfaceNameToSchemaName p.1 == interfaceNameToSchemaName Y) with
  | none =>
    exfalso
    have := List.find?_eq_none.mp hf (Y, cY) hmem
    simp at this
  | some p0 =>
    have hp : (interfaceNameToSchemaName p0.1 == interfaceNameToSchemaName Y) = true := by
      simpa using List.find?_some hf
    rw [beq_iff_eq] at hp
    have hp0mem : p0 ∈ reg := List.mem_of_find?_eq_some hf
    have he : p0 = (Y, cY) := List.inj_on_of_nodup_map hsn hp0mem hmem (by simpa using hp)
    rw [he]
    rfl

theorem not_reachable_no_inedge (idents : String → List String) (reg : NativeRegistry)
    (compText : String) (z : String)
    (hdirz : ¬ DirectlyUsed idents compText z)
    (hnoin : ∀ y, ¬ RefEdge idents reg y z) :
    ¬ NativeReachable idents reg compText z := by
  rintro ⟨i, hk, hd, hrt⟩
  rcases Relation.ReflTransGen.cases_tail hrt with h | ⟨mid, _, hedge⟩
  · rw [← h] at hd
    exact hdirz hd
  · exact hnoin mid hedge

theorem contentOf_cases (reg : NativeRegistry) (y : String) :
    contentOf reg y ∈ reg.map Prod.snd ∨ contentOf reg y = "" := by
  unfold contentOf
  cases hf : reg.find? (fun q => q.1 == y) with
  | none => exact Or.inr rfl
  | some p0 => exact Or.inl (List.mem_map.mpr ⟨p0, List.mem_of_find?_eq_some hf, rfl⟩)

/-- C5: usage analysis computes the reachable set: a native schema that is
not referenced directly by the concatenated component text nor transitively
through a used schema's body is absent from the analysis result (and so
from the final output); a schema `Y` referenced only from the body of a
schema `X` that the component text references directly is still marked
used. -/
theorem analyzeNativeSchemaDependencies_spec (idents : String → List String)
    (reg : NativeRegistry) (compText : String)
    (hsn : (reg.map (fun p => interfaceNameToSchemaName p.1)).Nodup) :
    (∀ z, ¬ NativeReachable idents reg compText z →
      z ∉ analyzeNativeSchemaDependencies idents reg compText) ∧
    (∀ X Y cX cY, (X, cX) ∈ reg → (Y, cY) ∈ reg → cX ≠ "" → cY ≠ "" →
      DirectlyUsed idents compText X →
      interfaceNameToSchemaName Y ∈ idents cX →
      Y ∈ analyzeNativeSchemaDependencies idents reg compText) := by
  constructor
  · intro z hz hmem
    exact hz (analyzeNative_sound idents reg compText z hmem)
  · intro X Y cX cY hX hY hcX hcY hdir hYin
    have hkeys := keys_nodup_of_schemaNames_nodup reg hsn
    have hcontX : contentOf reg X = cX := contentOf_eq reg hkeys X cX hX
    have hcontY : contentOf reg Y = cY := contentOf_eq reg hkeys Y cY hY
    have hkeyY : hasReg reg Y = true :=
      (hasReg_iff reg Y).mpr (List.mem_map.mpr ⟨(Y, cY), hY, rfl⟩)
    have hfindY := refs_find_self reg hsn Y cY hY
    have hXrefs : (interfaceNameToSchemaName X, X) ∈ nativeSchemaReferences reg := by
      rw [nativeSchemaReferences_eq reg hsn]
      exact List.mem_map.mpr ⟨(X, cX), hX, rfl⟩
    have hXdirect : X ∈ (nativeSchemaReferences reg).foldl (fun used q =>
        if (idents compText).contains q.1 then markAsUsed reg used q.2 else used) [] :=
      phase1_mem idents reg compText X (by rw [hcontX]; exact hcX) hdir
        (nativeSchemaReferences reg) [] hXrefs
    have hhits : ∀ used,
        Y ∈ findIndirectDependencies idents reg (reg.length + 1) (contentOf reg X) used :=
      findIndirectDependencies_hits idents reg reg.length (contentOf reg X) Y
        (by rw [hcontY]; exact hcY) hkeyY hfindY (by rw [hcontX]; exact hYin)
    exact foldl_find_mem_of idents reg X Y (reg.length + 1) hhits _ _ hXdirect

theorem regT_no_inedge : ∀ y, ¬ RefEdge identsT regT y "Gamma" := by
  rintro y ⟨_, hcont⟩
  rcases contentOf_cases regT y with hmem | hempty
  · have hmem' : contentOf regT y ∈ ["a-content", "b-content", "g-content"] := hmem
    rcases List.mem_cons.mp hmem' with h | h
    · rw [h] at hcont
      exact absurd hcont (by decide)
    rcases List.mem_cons.mp h with h' | h'
    · rw [h'] at hcont
      exact absurd hcont (by decide)
    rcases List.mem_cons.mp h' with h'' | h''
    · rw [h''] at hcont
      exact absurd hcont (by decide)
    · cases h''
  · rw [hempty] at hcont
    exact absurd hcont (by decide)

theorem analyzeNativeSchemaDependencies_spec_witness :
    "Gamma" ∉ analyzeNativeSchemaDependencies identsT regT "comp" ∧
    "Beta" ∈ analyzeNativeSchemaDependencies identsT regT "comp" := by
  have h := analyzeNativeSchemaDependencies_spec identsT regT "comp" (by decide)
  constructor
  · exact h.1 "Gamma"
      (not_reachable_no_inedge identsT regT "comp" "Gamma" (by decide) regT_no_inedge)
  · exact h.2 "Alpha" "Beta" "a-content" "b-content" (by decide) (by decide)
      (by decide) (by decide) (by decide) (by decide)
